import Mathlib

/-!
Verification of the node-fast framing codec (`lib/fast_protocol.js`).

This file gives a shallow embedding of the fast protocol message encoder
(`fastMessageEncode`, `findMatchingCrc`), the CRC validation logic
(`validateCrc`), the single-frame decoder (`fastMessageDecode`) and the
streaming decoder state machine (`FastMessageDecoder`), together with
theorems settling the specification claims about them.

Modelling conventions:

* JavaScript values that can appear as fast message data are modelled by
  the inductive `JVal` (null, booleans, integer numbers, strings, arrays,
  objects).  Numbers are modelled as integers: every payload the protocol
  itself produces (`m.uts` timestamps, msgids) is integral, and JSON
  fraction/exponent forms are outside the model.  Object fields are kept
  in JavaScript enumeration (insertion) order.  Strings are lists of
  unicode scalars.
* `JSON.stringify` and `JSON.parse` are JavaScript runtime builtins, not
  code of this repository; they are modelled by `stringifyV` and
  `parseJson` below, following the JSON format (string escaping as V8
  emits it, integer numerals, no whitespace on the emitting side).
* Buffers are lists of natural numbers (bytes); `Buffer.byteLength` and
  `buffer.write(_, 'utf8')` are modelled through `utf8Encode`, and
  `buffer.toString('utf8')` through `utf8Decode`.
* The mutation `data.m.uts = mod_microtime.now()` performed by
  `findMatchingCrc` is modelled by explicit state passing: the clock is an
  explicit stream `tau : Nat → Int` of microsecond values and the encoder
  returns the (possibly mutated) data value alongside the wire buffer.
-/

mutual
/-- JavaScript values exchanged as fast message data.  `jnull` models the
JavaScript value `null`; `jobj` models a plain object whose fields are
listed in enumeration order; `jarr` models an array. -/
inductive JVal where
  | jnull
  | jbool (b : Bool)
  | jnum (n : Int)
  | jstr (s : List Char)
  | jarr (elems : JElems)
  | jobj (fields : JFields)
deriving DecidableEq

/-- Element list of a JavaScript array (spelled out so that structural
recursion over `JVal` is available). -/
inductive JElems where
  | nil
  | cons (hd : JVal) (tl : JElems)
deriving DecidableEq

/-- Field list of a JavaScript object, in enumeration order. -/
inductive JFields where
  | nil
  | cons (key : List Char) (val : JVal) (tl : JFields)
deriving DecidableEq
end

/-- The double-quote character. -/
def qC : Char := Char.ofNat 34

/-- The backslash character. -/
def bsC : Char := Char.ofNat 92

/-- The opening-brace character. -/
def obC : Char := Char.ofNat 123

/-- The closing-brace character. -/
def cbC : Char := Char.ofNat 125

/-- Decimal digit character for a value below ten. -/
def digitChar (n : Nat) : Char := Char.ofNat (48 + n)

/-- Lowercase hexadecimal digit character, as V8 prints in escapes. -/
def hexDigitChar (n : Nat) : Char :=
  if n < 10 then Char.ofNat (48 + n) else Char.ofNat (87 + n)

/-- Decimal digits of `n`, most significant first.  The first argument is
recursion fuel; `n` itself is always sufficient. -/
def natDigitsGo : Nat → Nat → List Char
  | 0, _ => []
  | fuel + 1, n =>
    if n < 10 then [digitChar n]
    else natDigitsGo fuel (n / 10) ++ [digitChar (n % 10)]

/-- Decimal representation of a natural number. -/
def natDigits (n : Nat) : List Char := natDigitsGo (n + 1) n

/-- JavaScript decimal printing of an integral number. -/
def intChars (n : Int) : List Char :=
  if n < 0 then '-' :: natDigits n.natAbs else natDigits n.toNat

/-- JSON escape of one character, exactly as `JSON.stringify` emits it:
quote and backslash get two-character escapes, the five named control
escapes are used where available, all remaining control characters use
`\u00xx`, and every other character is emitted verbatim. -/
def escChar (c : Char) : List Char :=
  if c = qC then [bsC, qC]
  else if c = bsC then [bsC, bsC]
  else if c = Char.ofNat 8 then [bsC, 'b']
  else if c = Char.ofNat 9 then [bsC, 't']
  else if c = Char.ofNat 10 then [bsC, 'n']
  else if c = Char.ofNat 12 then [bsC, 'f']
  else if c = Char.ofNat 13 then [bsC, 'r']
  else if c.toNat < 32 then
    [bsC, 'u', '0', '0', hexDigitChar (c.toNat / 16), hexDigitChar (c.toNat % 16)]
  else [c]

/-- JSON escaping of a whole string body. -/
def escStr : List Char → List Char
  | [] => []
  | c :: t => escChar c ++ escStr t

/-- A JSON string literal: quoted and escaped. -/
def strLit (s : List Char) : List Char := qC :: escStr s ++ [qC]

mutual
/-- Model of `JSON.stringify` on fast message data values.  V8 emits no
whitespace, prints object fields in enumeration order and escapes strings
as in `escChar`. -/
def stringifyV : JVal → List Char
  | .jnull => ['n', 'u', 'l', 'l']
  | .jbool true => ['t', 'r', 'u', 'e']
  | .jbool false => ['f', 'a', 'l', 's', 'e']
  | .jnum n => intChars n
  | .jstr s => strLit s
  | .jarr xs => '[' :: stringifyElems xs ++ [']']
  | .jobj fs => obC :: stringifyMembers fs ++ [cbC]
termination_by structural v => v

/-- Comma-separated serialization of array elements. -/
def stringifyElems : JElems → List Char
  | .nil => []
  | .cons x .nil => stringifyV x
  | .cons x (.cons y rest) => stringifyV x ++ ',' :: stringifyElems (.cons y rest)
termination_by structural es => es

/-- Comma-separated serialization of object members. -/
def stringifyMembers : JFields → List Char
  | .nil => []
  | .cons k v .nil => strLit k ++ ':' :: stringifyV v
  | .cons k v (.cons k2 v2 rest) =>
    strLit k ++ ':' :: stringifyV v ++ ',' :: stringifyMembers (.cons k2 v2 rest)
termination_by structural fs => fs
end

mutual
/-- Fuel bound for the JSON reader: enough steps to reconsume the
serialization of a value. -/
def jcostV : JVal → Nat
  | .jnull => 1
  | .jbool _ => 1
  | .jnum _ => 1
  | .jstr _ => 1
  | .jarr xs => 1 + jcostElems xs
  | .jobj fs => 1 + jcostMembers fs
termination_by structural v => v

/-- Fuel bound for reading array elements. -/
def jcostElems : JElems → Nat
  | .nil => 0
  | .cons x tl => 1 + jcostV x + jcostElems tl
termination_by structural es => es

/-- Fuel bound for reading object members. -/
def jcostMembers : JFields → Nat
  | .nil => 0
  | .cons _ v tl => 1 + jcostV v + jcostMembers tl
termination_by structural fs => fs
end

/-- UTF-8 encoding of one unicode scalar. -/
def utf8EncodeChar (c : Char) : List Nat :=
  let n := c.toNat
  if n < 128 then [n]
  else if n < 2048 then [192 + n / 64, 128 + n % 64]
  else if n < 65536 then [224 + n / 4096, 128 + n / 64 % 64, 128 + n % 64]
  else [240 + n / 262144, 128 + n / 4096 % 64, 128 + n / 64 % 64, 128 + n % 64]

/-- UTF-8 encoding of a string, as `buffer.write(s, 'utf8')` stores it. -/
def utf8Encode : List Char → List Nat
  | [] => []
  | c :: t => utf8EncodeChar c ++ utf8Encode t

/-- UTF-8 byte length of a string, as `Buffer.byteLength` computes it. -/
def utf8Len (s : List Char) : Nat := (utf8Encode s).length

/-- The replacement character emitted for invalid UTF-8 input. -/
def replC : Char := Char.ofNat 65533

/-- One step of UTF-8 decoding: decode a scalar from the head of the byte
list, rejecting overlong forms, surrogates and out-of-range values.
Returns the scalar and the remaining bytes, or `none` for invalid input. -/
def utf8DecodeStep : List Nat → Option (Char × List Nat)
  | [] => none
  | b0 :: rest =>
    if b0 < 128 then some (Char.ofNat b0, rest)
    else if b0 < 194 then none
    else if b0 < 224 then
      match rest with
      | b1 :: rest1 =>
        if 128 ≤ b1 ∧ b1 < 192 then
          some (Char.ofNat ((b0 - 192) * 64 + (b1 - 128)), rest1)
        else none
      | _ => none
    else if b0 < 240 then
      match rest with
      | b1 :: b2 :: rest2 =>
        if 128 ≤ b1 ∧ b1 < 192 ∧ 128 ≤ b2 ∧ b2 < 192 then
          let n := (b0 - 224) * 4096 + (b1 - 128) * 64 + (b2 - 128)
          if 2048 ≤ n ∧ (n < 55296 ∨ 57343 < n) then some (Char.ofNat n, rest2)
          else none
        else none
      | _ => none
    else if b0 < 245 then
      match rest with
      | b1 :: b2 :: b3 :: rest3 =>
        if 128 ≤ b1 ∧ b1 < 192 ∧ 128 ≤ b2 ∧ b2 < 192 ∧ 128 ≤ b3 ∧ b3 < 192 then
          let n := (b0 - 240) * 262144 + (b1 - 128) * 4096 + (b2 - 128) * 64 + (b3 - 128)
          if 65536 ≤ n ∧ n < 1114112 then some (Char.ofNat n, rest3)
          else none
        else none
      | _ => none
    else none

/-- Fuel-driven UTF-8 decoding loop; on invalid input one byte is replaced
by `replC` and skipped (lossy decoding, as `buffer.toString('utf8')`
never fails). -/
def utf8DecodeGo : Nat → List Nat → List Char
  | 0, _ => []
  | _, [] => []
  | fuel + 1, b :: rest =>
    match utf8DecodeStep (b :: rest) with
    | some (c, rest2) =>
      c :: utf8DecodeGo fuel rest2
    | none => replC :: utf8DecodeGo fuel rest

/-- Model of `buffer.toString('utf8')`. -/
def utf8Decode (bs : List Nat) : List Char := utf8DecodeGo bs.length bs

/-- One bit-step of the CRC-16/XMODEM algorithm (polynomial 0x1021,
most-significant bit first). -/
def crcV1Bit (crc : Nat) : Nat :=
  if crc / 32768 % 2 = 1 then (crc * 2) % 65536 ^^^ 4129 else (crc * 2) % 65536

/-- One byte-step of the legacy CRC. -/
def crcV1Byte (crc b : Nat) : Nat :=
  crcV1Bit (crcV1Bit (crcV1Bit (crcV1Bit (crcV1Bit (crcV1Bit (crcV1Bit (crcV1Bit (crc ^^^ b * 256))))))))

/-- Modelled from the spec: the legacy CRC16 of the `oldcrc` dependency
(node-crc 0.3.0), which is not part of `src/`.  The specification pins it
through the reference vector `["hello","world"] => 10980`; the algorithm
reproducing that vector is CRC-16/XMODEM (polynomial 0x1021, initial
value 0, most-significant bit first) over the code units of the input. -/
def crc16V1 (bs : List Nat) : Nat := go 0 bs
where
  go : Nat → List Nat → Nat
  | crc, [] => crc
  | crc, b :: t => go (crcV1Byte crc b) t

/-- One bit-step of the CRC-16/ARC algorithm (reflected polynomial
0xA001, initial value 0). -/
def crcV2Bit (crc : Nat) : Nat :=
  if crc % 2 = 1 then crc / 2 ^^^ 40961 else crc / 2

/-- One byte-step of the correct CRC. -/
def crcV2Byte (crc b : Nat) : Nat :=
  crcV2Bit (crcV2Bit (crcV2Bit (crcV2Bit (crcV2Bit (crcV2Bit (crcV2Bit (crcV2Bit (crc ^^^ b))))))))

/-- Modelled from the spec: the correct CRC16 of the `crc` dependency,
which is not part of `src/`.  The specification pins it through the
reference vector `["hello","world"] => 7500`; the algorithm reproducing
that vector is CRC-16/ARC (reflected polynomial 0xA001, initial value 0)
over the bytes of the input. -/
def crc16V2 (bs : List Nat) : Nat := go 0 bs
where
  go : Nat → List Nat → Nat
  | crc, [] => crc
  | crc, b :: t => go (crcV2Byte crc b) t

/-- Hexadecimal digit value of a character. -/
def hexVal (c : Char) : Option Nat :=
  if 48 ≤ c.toNat ∧ c.toNat ≤ 57 then some (c.toNat - 48)
  else if 97 ≤ c.toNat ∧ c.toNat ≤ 102 then some (c.toNat - 87)
  else if 65 ≤ c.toNat ∧ c.toNat ≤ 70 then some (c.toNat - 55)
  else none

/-- JSON whitespace. -/
def isWsC (c : Char) : Bool :=
  c = Char.ofNat 32 ∨ c = Char.ofNat 9 ∨ c = Char.ofNat 10 ∨ c = Char.ofNat 13

/-- Drop leading JSON whitespace. -/
def skipWs (s : List Char) : List Char := s.dropWhile isWsC

/-- Decimal digit predicate. -/
def isDigitC (c : Char) : Bool := 48 ≤ c.toNat ∧ c.toNat ≤ 57

/-- Prepend a character to the string under construction. -/
def mapCons (c : Char) : Option (List Char × List Char) → Option (List Char × List Char)
  | some (s, r) => some (c :: s, r)
  | none => none

/-- Read four hexadecimal digits. -/
def pHex4 : List Char → Option (Nat × List Char)
  | h1 :: h2 :: h3 :: h4 :: rest =>
    match hexVal h1, hexVal h2, hexVal h3, hexVal h4 with
    | some a1, some a2, some a3, some a4 => some (a1 * 4096 + a2 * 256 + a3 * 16 + a4, rest)
    | _, _, _, _ => none
  | _ => none

/-- Decode one JSON string escape (the backslash already consumed).
Surrogate-pair escapes are combined into one scalar; escapes denoting
lone surrogates are rejected (JavaScript would produce a lone UTF-16
surrogate, which has no unicode-scalar representation). -/
def pEscChar : List Char → Option (Char × List Char)
  | [] => none
  | e :: rest2 =>
    if e = qC then some (qC, rest2)
    else if e = bsC then some (bsC, rest2)
    else if e = '/' then some ('/', rest2)
    else if e = 'b' then some (Char.ofNat 8, rest2)
    else if e = 'f' then some (Char.ofNat 12, rest2)
    else if e = 'n' then some (Char.ofNat 10, rest2)
    else if e = 'r' then some (Char.ofNat 13, rest2)
    else if e = 't' then some (Char.ofNat 9, rest2)
    else if e = 'u' then
      match pHex4 rest2 with
      | some (code, rest3) =>
        if 55296 ≤ code ∧ code < 56320 then
          match rest3 with
          | e2 :: u2 :: rest3b =>
            if e2 = bsC ∧ u2 = 'u' then
              match pHex4 rest3b with
              | some (lo, rest4) =>
                if 56320 ≤ lo ∧ lo < 57344 then
                  some (Char.ofNat (65536 + (code - 55296) * 1024 + (lo - 56320)), rest4)
                else none
              | none => none
            else none
          | _ => none
        else if 56320 ≤ code ∧ code < 57344 then none
        else some (Char.ofNat code, rest3)
      | none => none
    else none

/-- Read a JSON string body (the opening quote already consumed),
decoding escapes and rejecting raw control characters.  The first
argument is recursion fuel; each step consumes at least one character. -/
def pStrGo : Nat → List Char → Option (List Char × List Char)
  | 0, _ => none
  | fuel + 1, s =>
    match s with
    | [] => none
    | c :: rest =>
      if c = qC then some ([], rest)
      else if c = bsC then
        match pEscChar rest with
        | some (cv, rest2) => mapCons cv (pStrGo fuel rest2)
        | none => none
      else if c.toNat < 32 then none
      else mapCons c (pStrGo fuel rest)
termination_by structural fuel => fuel

/-- Read a JSON string body; the input length bounds the steps needed. -/
def pStr (s : List Char) : Option (List Char × List Char) := pStrGo (s.length + 1) s

/-- Numeric value of a digit string. -/
def digitsVal (ds : List Char) : Nat := List.foldl (fun acc c => acc * 10 + (c.toNat - 48)) 0 ds

/-- Read a JSON natural-number literal: one or more digits, no redundant
leading zero, not followed by a fraction or exponent marker (fractional
and exponent forms denote non-integral numbers, which are outside this
model of fast payloads). -/
def pNat (s : List Char) : Option (Nat × List Char) :=
  let ds := s.takeWhile isDigitC
  let rest := s.dropWhile isDigitC
  if ds.isEmpty then none
  else if ds.head? = some '0' ∧ ds.length ≠ 1 then none
  else
    match rest with
    | c :: _ => if c = '.' ∨ c = 'e' ∨ c = 'E' then none else some (digitsVal ds, rest)
    | [] => some (digitsVal ds, [])

/-- Read a JSON integer literal with optional minus sign. -/
def pNum (s : List Char) : Option (JVal × List Char) :=
  match s with
  | [] => none
  | c :: rest =>
    if c = '-' then
      match pNat rest with
      | some (n, r) => some (.jnum (-(n : Int)), r)
      | none => none
    else
      match pNat (c :: rest) with
      | some (n, r) => some (.jnum (n : Int), r)
      | none => none

mutual
/-- Read one JSON value.  The first argument is recursion fuel; together
with `pElems` and `pMembers` this models `JSON.parse` (restricted to
integral numbers). -/
def pVal : Nat → List Char → Option (JVal × List Char)
  | 0, _ => none
  | fuel + 1, s =>
    match skipWs s with
    | [] => none
    | c :: rest =>
      if c = 'n' then
        match rest with
        | 'u' :: 'l' :: 'l' :: r => some (.jnull, r)
        | _ => none
      else if c = 't' then
        match rest with
        | 'r' :: 'u' :: 'e' :: r => some (.jbool true, r)
        | _ => none
      else if c = 'f' then
        match rest with
        | 'a' :: 'l' :: 's' :: 'e' :: r => some (.jbool false, r)
        | _ => none
      else if c = qC then
        match pStr rest with
        | some (str, r) => some (.jstr str, r)
        | none => none
      else if c = '[' then
        match skipWs rest with
        | [] => none
        | c2 :: r2 =>
          if c2 = ']' then some (.jarr .nil, r2)
          else
            match pElems fuel rest with
            | some (xs, r) => some (.jarr xs, r)
            | none => none
      else if c = obC then
        match skipWs rest with
        | [] => none
        | c2 :: r2 =>
          if c2 = cbC then some (.jobj .nil, r2)
          else
            match pMembers fuel rest with
            | some (fs, r3) => some (.jobj fs, r3)
            | none => none
      else if c = '-' ∨ isDigitC c then pNum (c :: rest)
      else none
termination_by structural fuel => fuel

/-- Read the elements of a non-empty JSON array, consuming the closing
bracket. -/
def pElems : Nat → List Char → Option (JElems × List Char)
  | 0, _ => none
  | fuel + 1, s =>
    match pVal fuel s with
    | some (v, r) =>
      match skipWs r with
      | [] => none
      | c2 :: r2 =>
        if c2 = ',' then
          match pElems fuel r2 with
          | some (xs, r3) => some (.cons v xs, r3)
          | none => none
        else if c2 = ']' then some (.cons v .nil, r2)
        else none
    | none => none
termination_by structural fuel => fuel

/-- Read the members of a non-empty JSON object, consuming the closing
brace. -/
def pMembers : Nat → List Char → Option (JFields × List Char)
  | 0, _ => none
  | fuel + 1, s =>
    match skipWs s with
    | [] => none
    | c :: rest =>
      if c = qC then
        match pStr rest with
        | some (k, r) =>
          match skipWs r with
          | [] => none
          | c1 :: r2 =>
            if c1 = ':' then
              match pVal fuel r2 with
              | some (v, r3) =>
                match skipWs r3 with
                | [] => none
                | c2 :: r4 =>
                  if c2 = ',' then
                    match pMembers fuel r4 with
                    | some (fs, r5) => some (.cons k v fs, r5)
                    | none => none
                  else if c2 = cbC then some (.cons k v .nil, r4)
                  else none
              | none => none
            else none
        | none => none
      else none
termination_by structural fuel => fuel
end

/-- Model of `JSON.parse`: read one value surrounded by optional
whitespace, requiring the whole input to be consumed. -/
def parseJson (s : List Char) : Option JVal :=
  match pVal (s.length + 1) s with
  | some (v, r) => if skipWs r = [] then some v else none
  | none => none

/-- The object key `uts`. -/
def utsKey : List Char := ['u', 't', 's']

/-- The object key `m`. -/
def mKey : List Char := ['m']

/-- The object key `d`. -/
def dKey : List Char := ['d']

/-- The object key `name`. -/
def nameKey : List Char := ['n', 'a', 'm', 'e']

/-- The object key `message`. -/
def messageKey : List Char := ['m', 'e', 's', 's', 'a', 'g', 'e']

/-- Field lookup in enumeration order (JavaScript objects have unique
keys, so first match suffices). -/
def jGetF : JFields → List Char → Option JVal
  | .nil, _ => none
  | .cons k v tl, key => if k = key then some v else jGetF tl key

/-- JavaScript property access `value[key]`: `none` models `undefined`.
Arrays have no named data properties in this model. -/
def jGet : JVal → List Char → Option JVal
  | .jobj fs, key => jGetF fs key
  | _, _ => none

/-- `typeof value == 'object' && value !== null`, the `assert-plus`
object check: satisfied by objects and arrays. -/
def objectLike : JVal → Bool
  | .jobj _ => true
  | .jarr _ => true
  | _ => false

/-- Assign `fields[key] = v`: update the field in place if present,
otherwise append it (JavaScript inserts new keys at the end of the
enumeration order). -/
def setFieldF : JFields → List Char → JVal → JFields
  | .nil, key, v => .cons key v .nil
  | .cons k v0 tl, key, v =>
    if k = key then .cons k v tl else .cons k v0 (setFieldF tl key v)

/-- The JavaScript statement `data.m.uts = t` of `findMatchingCrc`.
`none` models a thrown `TypeError` (when `data.m` is absent, `null`, or a
primitive).  When `data.m` is an array the assignment succeeds but the
added property is invisible to `JSON.stringify`, so the value is
unchanged in this serialization-level model. -/
def setUts (data : JVal) (t : Int) : Option JVal :=
  match data with
  | .jobj fs =>
    match jGetF fs mKey with
    | some (.jobj mfs) => some (.jobj (setFieldF fs mKey (.jobj (setFieldF mfs utsKey (.jnum t)))))
    | some (.jarr _) => some (.jobj fs)
    | _ => none
  | _ => none

/-- Decidable equality for `Except` results, used to evaluate the model
on concrete inputs. -/
instance exceptDecEq {ε α : Type} [DecidableEq ε] [DecidableEq α] : DecidableEq (Except ε α)
  | .ok a, .ok b =>
    if h : a = b then .isTrue (by rw [h]) else .isFalse (by simp [h])
  | .ok _, .error _ => .isFalse (by simp)
  | .error _, .ok _ => .isFalse (by simp)
  | .error a, .error b =>
    if h : a = b then .isTrue (by rw [h]) else .isFalse (by simp [h])

/-- `FP_MSGID_MAX`: message ids live in `[0, 2^31 - 1]`. -/
def FP_MSGID_MAX : Nat := 2147483647

/-- A logical fast message as accepted by `fastMessageEncode`: named
properties `msgid`, `status`, `data` and the optional per-message
`crc_mode` (`none` models an absent property). -/
structure FastMsg where
  msgid : Int
  status : Int
  data : JVal
  crc_mode : Option Int
deriving DecidableEq

/-- Synchronous failures of `fastMessageEncode`: the `assert-plus`
failures on `msgid`, `data` and the default CRC mode, the `VError` for an
unsupported status, the `TypeError` thrown by `findMatchingCrc` when
`data.m` cannot hold a `uts` property, the `VError` for an unsupported
per-message CRC mode, and the range error of `writeUInt32BE`. -/
inductive EncErr where
  | assertMsgid
  | assertData
  | assertCrcMode
  | badStatus
  | typeError
  | badMode
  | rangeError
deriving DecidableEq

/-- JavaScript truthiness of an optional numeric option: `undefined` and
`0` are falsy. -/
def truthyMode : Option Int → Option Int
  | none => none
  | some v => if v = 0 then none else some v

/-- The chain `msg.crc_mode || default_crc_mode || FAST_CHECKSUM_V1`. -/
def effMode (mc dc : Option Int) : Int :=
  match truthyMode mc with
  | some v => v
  | none =>
    match truthyMode dc with
    | some v => v
    | none => 1

/-- The guard `default_crc_mode && default_crc_mode !== FAST_CHECKSUM_V1
&& !== FAST_CHECKSUM_V2 && !== FAST_CHECKSUM_V1_V2`. -/
def badDefaultMode (dc : Option Int) : Bool :=
  match truthyMode dc with
  | some v => ¬(v = 1 ∨ v = 3 ∨ v = 2)
  | none => false

/-- Modelled from the spec: `mod_old_crc.crc16` applied to a value that
is not a string, as `findMatchingCrc` does on its first line (the
`oldcrc` library is not part of `src/`).  The library iterates over the
`length` property of its argument and starts from CRC 0, so for values
without usable character data the initial CRC 0 is returned; strings get
the legacy CRC of their code units. -/
def oldCrcOfValue : JVal → Nat
  | .jstr s => crc16V1 (utf8Encode s)
  | _ => 0

/-- Result of the matching-CRC search loop: whether a serialization with
agreeing CRCs was found, the serialization current when the loop stopped,
and the (possibly mutated) data value. -/
structure FmcRes where
  matched : Bool
  enc : List Char
  data : JVal
deriving DecidableEq

/-- The `for (var i = 0; i < 500000; i++)` loop of `findMatchingCrc`:
compare the legacy and correct CRCs of the current serialization; on
agreement stop, otherwise assign `data.m.uts = mod_microtime.now()`
(the clock is the explicit stream `tau`) and re-serialize.  `.error`
models the `TypeError` thrown by the assignment when `data.m` is absent
or primitive. -/
def fmcGo (tau : Nat → Int) : Nat → Nat → JVal → List Char → Except Unit FmcRes
  | 0, _, data, enc => .ok ⟨false, enc, data⟩
  | fuel + 1, i, data, enc =>
    if crc16V1 (utf8Encode enc) = crc16V2 (utf8Encode enc) then .ok ⟨true, enc, data⟩
    else
      match setUts data (tau i) with
      | some data2 => fmcGo tau fuel (i + 1) data2 (stringifyV data2)
      | none => .error ()

/-- `findMatchingCrc`: returns the CRC to emit, the serialization to
emit, and the data value as left by the search.  On a match the common
CRC of the found serialization is used; if the 500,000-iteration cap is
reached the pre-loop fallback `mod_old_crc.crc16(data)` is used together
with the last serialization. -/
def findMatchingCrc (data : JVal) (tau : Nat → Int) : Except Unit (Nat × List Char × JVal) :=
  match fmcGo tau 500000 0 data (stringifyV data) with
  | .ok r =>
    .ok (if r.matched then crc16V1 (utf8Encode r.enc) else oldCrcOfValue data, r.enc, r.data)
  | .error e => .error e

/-- Big-endian bytes of a 32-bit value, as `writeUInt32BE` stores them. -/
def be32 (n : Nat) : List Nat :=
  [n / 16777216 % 256, n / 65536 % 256, n / 256 % 256, n % 256]

/-- Model of `fastMessageEncode(msg, default_crc_mode)`.  Returns the
wire buffer together with `msg.data` as left by the encoder (the
matching-CRC search may have mutated it in place). -/
def fastMessageEncode (msg : FastMsg) (default_crc_mode : Option Int) (tau : Nat → Int) :
    Except EncErr (List Nat × JVal) :=
  if ¬(0 ≤ msg.msgid ∧ msg.msgid ≤ 2147483647) then .error .assertMsgid
  else if ¬objectLike msg.data then .error .assertData
  else if badDefaultMode default_crc_mode then .error .assertCrcMode
  else if ¬(msg.status = 1 ∨ msg.status = 2 ∨ msg.status = 3) then .error .badStatus
  else
    let data_encoded := stringifyV msg.data
    let crc_mode := effMode msg.crc_mode default_crc_mode
    let step : Except EncErr (Nat × List Char × JVal) :=
      if crc_mode = 1 then
        match findMatchingCrc msg.data tau with
        | .ok r => .ok r
        | .error _ => .error .typeError
      else if crc_mode = 3 then .ok (crc16V2 (utf8Encode data_encoded), data_encoded, msg.data)
      else if crc_mode = 2 then
        match findMatchingCrc msg.data tau with
        | .ok r => .ok r
        | .error _ => .error .typeError
      else .error .badMode
    match step with
    | .error e => .error e
    | .ok (crc16, enc, data2) =>
      let datalen := utf8Len enc
      if 4294967295 < datalen then .error .rangeError
      else
        .ok ([1, 1, msg.status.toNat] ++ be32 msg.msgid.toNat ++ be32 crc16 ++
          be32 datalen ++ utf8Encode enc, data2)

/-- Decoder-side protocol errors, named by their `fastReason`, plus
`assertFailed` for thrown `assert-plus` failures. -/
inductive DErr where
  | unsupportedVersion
  | unsupportedType
  | unsupportedStatus
  | invalidMsgid
  | badCrc
  | invalidJson
  | badData
  | badDataD
  | badError
  | incompleteMessage
  | assertFailed
deriving DecidableEq

/-- A decoded logical message as emitted by the decoder. -/
structure DMsg where
  status : Nat
  msgid : Nat
  data : JVal
  crc_mode : Option Int
deriving DecidableEq

/-- Model of `validateCrc(crcMode, headerCrc, data)`: returns the decoded
CRC mode and the optional validation error; `none` models the
`assert-plus` failure on an unrecognized mode.  CRCs are computed over
the code units of the payload string, here its UTF-8 bytes. -/
def validateCrc (crcMode : Int) (headerCrc : Nat) (bytes : List Nat) :
    Option (Option Int × Option DErr) :=
  if crcMode = 1 then
    let v1 := crc16V1 bytes
    some (none, if v1 ≠ headerCrc then some .badCrc else none)
  else if crcMode = 2 then
    let v1 := crc16V1 bytes
    let v2 := crc16V2 bytes
    if v1 ≠ headerCrc ∧ v2 ≠ headerCrc then some (none, some .badCrc)
    else if v1 = headerCrc ∧ v2 = headerCrc then some (some 2, none)
    else if v2 = headerCrc then some (some 3, none)
    else some (some 1, none)
  else if crcMode = 3 then
    let v2 := crc16V2 bytes
    some (some 3, if v2 ≠ headerCrc then some .badCrc else none)
  else none

/-- The parsed fast protocol header. -/
structure FastHeader where
  version : Nat
  type : Nat
  status : Nat
  msgid : Nat
  crc : Nat
  datalen : Nat
deriving DecidableEq

/-- `Array.isArray(value)`. -/
def isArr : Option JVal → Bool
  | some (.jarr _) => true
  | _ => false

/-- The ERROR-status payload check: `json.d` must be a non-null object
with string `name` and string `message` (arrays fail because they carry
neither property). -/
def errorDOk : Option JVal → Bool
  | some (.jobj dfs) =>
    (match jGetF dfs nameKey with
     | some (.jstr _) => true
     | _ => false) &&
    (match jGetF dfs messageKey with
     | some (.jstr _) => true
     | _ => false)
  | _ => false

/-- Model of `fastMessageDecode(header, buffer, crcMode)`: validate the
CRC, JSON-parse the payload, apply the per-status shape checks and build
the logical message. -/
def fastMessageDecode (header : FastHeader) (buffer : List Nat) (crcMode : Option Int) :
    Except DErr DMsg :=
  if buffer.length ≠ 15 + header.datalen then .error .assertFailed
  else
    let datastr := utf8Decode (buffer.drop 15)
    let mode :=
      match truthyMode crcMode with
      | some v => v
      | none => 1
    match validateCrc mode header.crc (utf8Encode datastr) with
    | none => .error .assertFailed
    | some (_, some e) => .error e
    | some (decodedCrcMode, none) =>
      match parseJson datastr with
      | none => .error .invalidJson
      | some json =>
        if ¬objectLike json then .error .badData
        else if (header.status = 1 ∨ header.status = 2) ∧ ¬isArr (jGet json dKey) then
          .error .badDataD
        else if header.status = 3 ∧ ¬errorDOk (jGet json dKey) then .error .badError
        else .ok ⟨header.status, header.msgid, json, decodedCrcMode⟩

/-- `buf.readUInt32BE(off)` over a byte list. -/
def readU32 (buf : List Nat) (off : Nat) : Nat :=
  buf.getD off 0 * 16777216 + buf.getD (off + 1) 0 * 65536 +
    buf.getD (off + 2) 0 * 256 + buf.getD (off + 3) 0

/-- Result of one run of the `while` loop in
`FastMessageDecoder.prototype.decode`: messages pushed, the error set (if
any), and the remaining unconsumed bytes. -/
structure DecRun where
  msgs : List DMsg
  err : Option DErr
  buf : List Nat
deriving DecidableEq

/-- The `while (havebytes >= FP_HEADER_SZ)` loop of the stream decoder:
validate version, type, status and msgid in order, wait for a complete
frame, then decode it, push the message and continue; any error stops the
loop.  The first argument is recursion fuel. -/
def decodeLoopGo (mode : Option Int) : Nat → List Nat → DecRun
  | 0, buf => ⟨[], none, buf⟩
  | fuel + 1, buf =>
    if buf.length < 15 then ⟨[], none, buf⟩
    else if buf.getD 0 0 ≠ 1 then ⟨[], some .unsupportedVersion, buf⟩
    else if buf.getD 1 0 ≠ 1 then ⟨[], some .unsupportedType, buf⟩
    else if ¬(buf.getD 2 0 = 1 ∨ buf.getD 2 0 = 2 ∨ buf.getD 2 0 = 3) then
      ⟨[], some .unsupportedStatus, buf⟩
    else if 2147483647 < readU32 buf 3 then ⟨[], some .invalidMsgid, buf⟩
    else
      let datalen := readU32 buf 11
      if buf.length < 15 + datalen then ⟨[], none, buf⟩
      else
        let frame := buf.take (15 + datalen)
        let rest := buf.drop (15 + datalen)
        match fastMessageDecode
            ⟨buf.getD 0 0, buf.getD 1 0, buf.getD 2 0, readU32 buf 3, readU32 buf 7, datalen⟩
            frame mode with
        | .error e => ⟨[], some e, rest⟩
        | .ok m =>
          let r := decodeLoopGo mode fuel rest
          ⟨m :: r.msgs, r.err, r.buf⟩

/-- One run of the decoder loop over a buffer (each iteration that
continues consumes at least 15 bytes, so `length + 1` fuel suffices). -/
def decodeLoop (mode : Option Int) (buf : List Nat) : DecRun :=
  decodeLoopGo mode (buf.length + 1) buf

/-- Stream decoder state: unparsed bytes, whether end-of-stream was seen,
the latched error, and all messages emitted so far. -/
structure DecSt where
  buf : List Nat
  done : Bool
  err : Option DErr
  msgs : List DMsg
deriving DecidableEq

/-- Fresh decoder state. -/
def initSt : DecSt := ⟨[], false, none, []⟩

/-- One invocation of `FastMessageDecoder.prototype.decode`: run the
loop, then raise `incomplete_message` if end-of-stream was reached with
unconsumed bytes and no other error. -/
def decodeStep (mode : Option Int) (st : DecSt) : DecSt :=
  let r := decodeLoop mode st.buf
  let err2 :=
    match r.err with
    | some e => some e
    | none => if st.done ∧ r.buf ≠ [] then some .incompleteMessage else none
  ⟨r.buf, st.done, err2, st.msgs ++ r.msgs⟩

/-- `_transform`: append the chunk and decode.  A decoder whose error has
latched processes nothing further (the stream has already surfaced the
error and destroys itself). -/
def feed (mode : Option Int) (st : DecSt) (chunk : List Nat) : DecSt :=
  if st.err.isSome then st
  else decodeStep mode ⟨st.buf ++ chunk, st.done, st.err, st.msgs⟩

/-- `_flush`: record end-of-stream and decode once more. -/
def finish (mode : Option Int) (st : DecSt) : DecSt :=
  if st.err.isSome then st
  else decodeStep mode ⟨st.buf, true, st.err, st.msgs⟩

/-- A fully validated logical message: the guarantees the decoder checks
before emitting. -/
def validDMsg (m : DMsg) : Prop :=
  (m.status = 1 ∨ m.status = 2 ∨ m.status = 3) ∧ m.msgid ≤ FP_MSGID_MAX ∧
    objectLike m.data = true ∧
    ((m.status = 1 ∨ m.status = 2) → isArr (jGet m.data dKey) = true) ∧
    (m.status = 3 → errorDOk (jGet m.data dKey) = true)

/-- A quiescent decoder state: running the loop on the buffered bytes
consumes nothing and raises nothing (every state left behind by a
completed `_transform` call is of this shape). -/
def settledSt (mode : Option Int) (st : DecSt) : Prop :=
  decodeLoop mode st.buf = ⟨[], none, st.buf⟩

/-- Characters that must not follow a serialized number for the reader to
stop exactly at its end (in serialized output a number is always followed
by a separator or closing bracket, or ends the input). -/
def numGuard : List Char → Prop
  | [] => True
  | c :: _ => ¬(isDigitC c = true ∨ c = '.' ∨ c = 'e' ∨ c = 'E')

/-- Concrete data value `{"m":{"uts":32221},"d":[]}` whose legacy and
correct CRCs agree on the very first serialization. -/
def cexDataA : JVal :=
  .jobj (.cons mKey (.jobj (.cons utsKey (.jnum 32221) .nil)) (.cons dKey (.jarr .nil) .nil))

/-- Concrete data value `{"m":{"name":"r","uts":1},"d":[]}` whose legacy
and correct CRCs disagree on the first serialization. -/
def cexDataB : JVal :=
  .jobj (.cons mKey (.jobj (.cons nameKey (.jstr ['r']) (.cons utsKey (.jnum 1) .nil)))
    (.cons dKey (.jarr .nil) .nil))

/-- Concrete data value `{"m":{"name":"r"},"d":[]}`: it carries `m` but
no `m.uts`, and its first serialization's CRCs disagree. -/
def cexDataC : JVal :=
  .jobj (.cons mKey (.jobj (.cons nameKey (.jstr ['r']) .nil)) (.cons dKey (.jarr .nil) .nil))

/-- A concrete clock always returning 6763, the timestamp at which the
serializations of `cexDataB` and `cexDataC` reach agreeing CRCs. -/
def cexTau : Nat → Int := fun _ => 6763

/-- A concrete 16-byte frame: valid header with msgid 1, CRC 65439 and
payload `x` (one byte), which is not valid JSON. -/
def cexFrameX : List Nat := [1, 1, 1] ++ be32 1 ++ be32 65439 ++ be32 1 ++ [120]

/-- The 17 characters of the serialization of the pinned CRC test vector
of the protocol tests. -/
def c6payload : List Char :=
  ['[', qC, 'h', 'e', 'l', 'l', 'o', qC, ',', qC, 'w', 'o', 'r', 'l', 'd', qC, ']']

/-- The data value of the pinned CRC test vector. -/
def c6data : JVal :=
  .jarr (.cons (.jstr ['h', 'e', 'l', 'l', 'o']) (.cons (.jstr ['w', 'o', 'r', 'l', 'd']) .nil))

/-- `cexDataC` after the matching-CRC search assigns `m.uts` once under
the clock `cexTau`: `\x7b"m":\x7b"name":"r","uts":6763\x7d,"d":[]\x7d`. -/
def cexDataC2 : JVal :=
  .jobj (.cons mKey (.jobj (.cons nameKey (.jstr ['r']) (.cons utsKey (.jnum 6763) .nil)))
    (.cons dKey (.jarr .nil) .nil))

/-- Result of encoding msgid 1, status 1, data `cexDataB` with
per-message mode V1 under the clock `cexTau`. -/
def cexEncB : Except EncErr (List Nat × JVal) :=
  fastMessageEncode ⟨1, 1, cexDataB, some 1⟩ none cexTau

/-- The wire buffer produced by `cexEncB`. -/
def cexBufB : List Nat :=
  match cexEncB with
  | .ok (b, _) => b
  | .error _ => []

/-- The data value left behind by `cexEncB` (its `m.uts` reassigned to
6763 by the matching-CRC search). -/
def cexDataB2 : JVal :=
  match cexEncB with
  | .ok (_, d) => d
  | .error _ => .jnull

/-- Result of encoding msgid 1, status 1, data `cexDataA` with
per-message mode V1_V2 under the clock `cexTau`. -/
def cexEncA : Except EncErr (List Nat × JVal) :=
  fastMessageEncode ⟨1, 1, cexDataA, some 2⟩ none cexTau

/-- The wire buffer produced by `cexEncA`. -/
def cexBufA : List Nat :=
  match cexEncA with
  | .ok (b, _) => b
  | .error _ => []

/-- A 15-byte buffer whose version byte is 2. -/
def cexBadVersion : List Nat := [2, 0, 0, 0, 0, 0, 0, 0, 0, 0, 0, 0, 0, 0, 0]

/-- A quiescent decoder state holding two buffered bytes, no error and no
end-of-stream mark. -/
def cexStub : DecSt := ⟨[1, 1], false, none, []⟩

/-! Auxiliary lemmas: characters and decimal digits. -/

theorem charToNat_ofNat {m : Nat} (h : m < 55296) : (Char.ofNat m).toNat = m := by
  unfold Char.ofNat
  rw [dif_pos (Or.inl h)]
  rfl

theorem charEq_of_toNat {c d : Char} (h : c.toNat = d.toNat) : c = d :=
  Char.eq_of_val_eq (UInt32.ext h)

theorem charNe_of_toNat {c d : Char} (h : c.toNat ≠ d.toNat) : c ≠ d := by
  intro he
  exact h (by rw [he])

theorem digitChar_toNat {n : Nat} (h : n < 10) : (digitChar n).toNat = 48 + n :=
  charToNat_ofNat (by omega)

theorem isDigitC_digitChar {n : Nat} (h : n < 10) : isDigitC (digitChar n) = true := by
  simp [isDigitC, digitChar_toNat h]
  omega

theorem takeWhile_append_of_all {p : Char → Bool} {l : List Char} (r : List Char)
    (h : ∀ c ∈ l, p c = true) : (l ++ r).takeWhile p = l ++ r.takeWhile p := by
  induction l with
  | nil => simp
  | cons c t ih =>
    simp [List.takeWhile_cons, h c (by simp), ih (fun x hx => h x (by simp [hx]))]

theorem dropWhile_append_of_all {p : Char → Bool} {l : List Char} (r : List Char)
    (h : ∀ c ∈ l, p c = true) : (l ++ r).dropWhile p = r.dropWhile p := by
  induction l with
  | nil => simp
  | cons c t ih =>
    simp [List.dropWhile_cons, h c (by simp), ih (fun x hx => h x (by simp [hx]))]

theorem natDigitsGo_all_digits :
    ∀ fuel n : Nat, ∀ c ∈ natDigitsGo fuel n, isDigitC c = true := by
  intro fuel
  induction fuel with
  | zero => intro n c hc; simp [natDigitsGo] at hc
  | succ fuel ih =>
    intro n c hc
    by_cases h : n < 10
    · simp [natDigitsGo, h] at hc
      subst hc
      exact isDigitC_digitChar h
    · simp only [natDigitsGo, if_neg h, List.mem_append, List.mem_singleton] at hc
      rcases hc with hc | hc
      · exact ih _ c hc
      · subst hc
        exact isDigitC_digitChar (by omega)

theorem natDigitsGo_ne_nil {fuel n : Nat} (h : 0 < fuel) : natDigitsGo fuel n ≠ [] := by
  match fuel with
  | f + 1 =>
    by_cases hn : n < 10
    · simp [natDigitsGo, hn]
    · simp [natDigitsGo, hn]

theorem digitsVal_append_digit (ds : List Char) (c : Char) :
    digitsVal (ds ++ [c]) = 10 * digitsVal ds + (c.toNat - 48) := by
  simp [digitsVal]
  omega

theorem digitsVal_natDigitsGo :
    ∀ n fuel : Nat, n < fuel → digitsVal (natDigitsGo fuel n) = n := by
  intro n
  induction n using Nat.strong_induction_on with
  | _ n ih =>
    intro fuel hf
    match fuel with
    | f + 1 =>
      by_cases h : n < 10
      · simp [natDigitsGo, h, digitsVal, digitChar_toNat h]
      · rw [natDigitsGo, if_neg h, digitsVal_append_digit,
          ih (n / 10) (by omega) f (by omega), digitChar_toNat (by omega)]
        omega

theorem natDigitsGo_stable :
    ∀ n f1 f2 : Nat, n < f1 → n < f2 → natDigitsGo f1 n = natDigitsGo f2 n := by
  intro n
  induction n using Nat.strong_induction_on with
  | _ n ih =>
    intro f1 f2 h1 h2
    match f1, f2 with
    | g1 + 1, g2 + 1 =>
      by_cases h : n < 10
      · simp [natDigitsGo, h]
      · rw [natDigitsGo, natDigitsGo, if_neg h, if_neg h,
          ih (n / 10) (by omega) g1 g2 (by omega) (by omega)]

theorem natDigits_head_ne_zero {n : Nat} (h : 0 < n) :
    ∀ t, natDigits n ≠ '0' :: t := by
  have main : ∀ n fuel : Nat, 0 < n → n < fuel → ∀ t, natDigitsGo fuel n ≠ '0' :: t := by
    intro n
    induction n using Nat.strong_induction_on with
    | _ n ih =>
      intro fuel hn hf t
      match fuel with
      | f + 1 =>
        by_cases h10 : n < 10
        · simp only [natDigitsGo, if_pos h10]
          intro he
          have hc : digitChar n = '0' := by
            have := List.cons.injEq (digitChar n) [] '0' t ▸ he
            exact (List.cons.inj he).1
          have : (digitChar n).toNat = 48 := by rw [hc]; rfl
          rw [digitChar_toNat h10] at this
          omega
        · simp only [natDigitsGo, if_neg h10]
          intro he
          rcases hnd : natDigitsGo f (n / 10) with _ | ⟨c, t2⟩
          · exact natDigitsGo_ne_nil (by omega) hnd
          · rw [hnd] at he
            simp at he
            exact ih (n / 10) (by omega) f (by omega) (by omega) t2 (by rw [hnd, he.1])
  exact main n (n + 1) h (by omega)


/-! Auxiliary lemmas: reading back serialized numbers. -/

theorem isDigitC_false_of_numGuard {c : Char} {t : List Char} (hg : numGuard (c :: t)) :
    isDigitC c = false := by
  simp only [numGuard] at hg
  cases h : isDigitC c
  · rfl
  · exact absurd (Or.inl h) hg

theorem takeWhile_numGuard {rest : List Char} (hg : numGuard rest) :
    rest.takeWhile isDigitC = [] := by
  cases rest with
  | nil => rfl
  | cons c t => simp [List.takeWhile_cons, isDigitC_false_of_numGuard hg]

theorem dropWhile_numGuard {rest : List Char} (hg : numGuard rest) :
    rest.dropWhile isDigitC = rest := by
  cases rest with
  | nil => rfl
  | cons c t => simp [List.dropWhile_cons, isDigitC_false_of_numGuard hg]

theorem pNat_natDigits (n : Nat) (rest : List Char) (hg : numGuard rest) :
    pNat (natDigits n ++ rest) = some (n, rest) := by
  have hall : ∀ c ∈ natDigits n, isDigitC c = true := fun c hc =>
    natDigitsGo_all_digits (n + 1) n c hc
  have htake : (natDigits n ++ rest).takeWhile isDigitC = natDigits n := by
    rw [takeWhile_append_of_all rest hall, takeWhile_numGuard hg, List.append_nil]
  have hdrop : (natDigits n ++ rest).dropWhile isDigitC = rest := by
    rw [dropWhile_append_of_all rest hall, dropWhile_numGuard hg]
  have hne : natDigits n ≠ [] := natDigitsGo_ne_nil (by omega)
  have hval : digitsVal (natDigits n) = n := digitsVal_natDigitsGo n (n + 1) (by omega)
  simp only [pNat, htake, hdrop]
  rw [if_neg (by simpa [List.isEmpty_iff] using hne)]
  have hzero : ¬((natDigits n).head? = some '0' ∧ (natDigits n).length ≠ 1) := by
    rintro ⟨hh, hl⟩
    by_cases hn0 : n = 0
    · subst hn0
      exact hl (by decide)
    · rcases hd : natDigits n with _ | ⟨c, t⟩
      · exact hne hd
      · rw [hd] at hh
        simp at hh
        exact natDigits_head_ne_zero (n := n) (by omega) t (by rw [hd, hh])
  rw [if_neg hzero]
  cases rest with
  | nil => simp [hval]
  | cons c t =>
    simp only [numGuard] at hg
    have h1 : ¬(c = '.' ∨ c = 'e' ∨ c = 'E') := fun h => hg (Or.inr h)
    simp [h1, hval]

theorem natDigits_head_digit (n : Nat) :
    ∃ c t, natDigits n = c :: t ∧ isDigitC c = true := by
  rcases hd : natDigits n with _ | ⟨c, t⟩
  · exact absurd hd (natDigitsGo_ne_nil (by omega))
  · refine ⟨c, t, rfl, natDigitsGo_all_digits (n + 1) n c ?_⟩
    show c ∈ natDigits n
    rw [hd]
    simp

theorem isDigitC_toNat_ne {c : Char} {m : Nat} (h : isDigitC c = true) (hm : m < 48 ∨ 57 < m) :
    c.toNat ≠ m := by
  simp [isDigitC] at h
  omega

theorem pNum_intChars (n : Int) (rest : List Char) (hg : numGuard rest) :
    pNum (intChars n ++ rest) = some (.jnum n, rest) := by
  have h2 : -(n.natAbs : Int) = n ∨ (n.toNat : Int) = n := by omega
  by_cases hneg : n < 0
  · simp only [intChars, if_pos hneg, List.cons_append]
    simp [pNum, pNat_natDigits n.natAbs rest hg]
    rw [abs_of_neg hneg]
    ring
  · have h3 : (n.toNat : Int) = n := by omega
    simp only [intChars, if_neg hneg]
    obtain ⟨c, t, hd, hdig⟩ := natDigits_head_digit n.toNat
    rw [hd]
    have hcm : ¬ c = '-' := charNe_of_toNat (isDigitC_toNat_ne hdig (by simp))
    have hp : pNat (c :: (t ++ rest)) = some (n.toNat, rest) := by
      rw [← List.cons_append, ← hd]
      exact pNat_natDigits n.toNat rest hg
    simp only [List.cons_append, pNum, if_neg hcm]
    simp [hp, h3]


/-! Auxiliary lemmas: reading back serialized strings. -/

theorem escChar_length_pos (c : Char) : 1 ≤ (escChar c).length := by
  unfold escChar
  split_ifs <;> simp

theorem escStr_length (s : List Char) : s.length ≤ (escStr s).length := by
  induction s with
  | nil => simp [escStr]
  | cons c t ih =>
    show (c :: t).length ≤ (escChar c ++ escStr t).length
    rw [List.length_append]
    have := escChar_length_pos c
    simp only [List.length_cons]
    omega

theorem pStrGo_escChar_step (c : Char) (f : Nat) (x : List Char) :
    pStrGo (f + 1) (escChar c ++ x) = mapCons c (pStrGo f x) := by
  by_cases hq : c = qC
  · subst hq
    rfl
  · by_cases hb : c = bsC
    · subst hb
      rfl
    · by_cases hctl : c.toNat < 32
      · have hofn := Char.ofNat_toNat c
        generalize hg : c.toNat = k at hctl hofn
        interval_cases k <;> (subst hofn; rfl)
      · have h8 : ¬ c = Char.ofNat 8 := fun h => hctl (by rw [h]; decide)
        have h9 : ¬ c = Char.ofNat 9 := fun h => hctl (by rw [h]; decide)
        have h10 : ¬ c = Char.ofNat 10 := fun h => hctl (by rw [h]; decide)
        have h12 : ¬ c = Char.ofNat 12 := fun h => hctl (by rw [h]; decide)
        have h13 : ¬ c = Char.ofNat 13 := fun h => hctl (by rw [h]; decide)
        rw [show escChar c = [c] from by simp [escChar, hq, hb, h8, h9, h10, h12, h13, hctl]]
        show pStrGo (f + 1) (c :: x) = mapCons c (pStrGo f x)
        rw [pStrGo]
        simp only [hq, hb, hctl, if_false, ite_false]

theorem pStrGo_escStr :
    ∀ fuel s rest, s.length < fuel → pStrGo fuel (escStr s ++ qC :: rest) = some (s, rest) := by
  intro fuel
  induction fuel with
  | zero => intro s rest h; omega
  | succ f ih =>
    intro s rest h
    cases s with
    | nil => rfl
    | cons c t =>
      show pStrGo (f + 1) ((escChar c ++ escStr t) ++ qC :: rest) = some (c :: t, rest)
      rw [List.append_assoc, pStrGo_escChar_step, ih t rest (by simp at h; omega)]
      rfl

theorem pStr_escStr (s : List Char) (rest : List Char) :
    pStr (escStr s ++ qC :: rest) = some (s, rest) := by
  apply pStrGo_escStr
  have := escStr_length s
  simp only [List.length_append, List.length_cons]
  omega

/-! Auxiliary lemmas: navigating the value reader. -/

theorem charNe_lit {c : Char} {d : Char} (h : c.toNat ≠ d.toNat) : c ≠ d := charNe_of_toNat h

theorem pVal_step_num {c : Char} (hc : c = '-' ∨ isDigitC c = true) (f : Nat) (t : List Char) :
    pVal (f + 1) (c :: t) = pNum (c :: t) := by
  have htn : c.toNat = 45 ∨ (48 ≤ c.toNat ∧ c.toNat ≤ 57) := by
    rcases hc with h | h
    · left
      rw [h]
      rfl
    · right
      simpa [isDigitC] using h
  have hws : isWsC c = false := by
    have hne : ¬(c = Char.ofNat 32 ∨ c = Char.ofNat 9 ∨ c = Char.ofNat 10 ∨
        c = Char.ofNat 13) := by
      rintro (h | h | h | h) <;> (rw [h] at htn; simp [charToNat_ofNat] at htn)
    simpa [isWsC] using hne
  have hskip : skipWs (c :: t) = c :: t := by simp [skipWs, List.dropWhile_cons, hws]
  rw [pVal, hskip]
  have hn : ¬ c = 'n' := charNe_lit (by show c.toNat ≠ 110; omega)
  have ht : ¬ c = 't' := charNe_lit (by show c.toNat ≠ 116; omega)
  have hf : ¬ c = 'f' := charNe_lit (by show c.toNat ≠ 102; omega)
  have hq : ¬ c = qC := charNe_lit (by show c.toNat ≠ 34; omega)
  have hb : ¬ c = '[' := charNe_lit (by show c.toNat ≠ 91; omega)
  have ho : ¬ c = obC := charNe_lit (by show c.toNat ≠ 123; omega)
  simp only [hn, ht, hf, hq, hb, ho, if_false, ite_false, hc, if_pos]

/-! Auxiliary lemmas: reading back whole serialized values. -/

theorem jcostV_pos (v : JVal) : 1 ≤ jcostV v := by
  cases v <;> simp [jcostV]

theorem numGuard_comma (t : List Char) : numGuard (',' :: t) := by
  show ¬(isDigitC ',' = true ∨ (',' : Char) = '.' ∨ (',' : Char) = 'e' ∨ (',' : Char) = 'E')
  decide

theorem numGuard_rb (t : List Char) : numGuard (']' :: t) := by
  show ¬(isDigitC ']' = true ∨ (']' : Char) = '.' ∨ (']' : Char) = 'e' ∨ (']' : Char) = 'E')
  decide

theorem numGuard_cb (t : List Char) : numGuard (cbC :: t) := by
  show ¬(isDigitC cbC = true ∨ cbC = '.' ∨ cbC = 'e' ∨ cbC = 'E')
  decide

theorem isWsC_eq_false {c : Char} (h32 : c.toNat ≠ 32) (h9 : c.toNat ≠ 9)
    (h10 : c.toNat ≠ 10) (h13 : c.toNat ≠ 13) : isWsC c = false := by
  have hne : ¬(c = Char.ofNat 32 ∨ c = Char.ofNat 9 ∨ c = Char.ofNat 10 ∨ c = Char.ofNat 13) := by
    rintro (rfl | rfl | rfl | rfl)
    · exact h32 (by decide)
    · exact h9 (by decide)
    · exact h10 (by decide)
    · exact h13 (by decide)
  simpa [isWsC] using hne

theorem skipWs_cons_false {c : Char} (t : List Char) (h : isWsC c = false) :
    skipWs (c :: t) = c :: t := by
  simp [skipWs, List.dropWhile_cons, h]

/-- The first character of a serialized value: never whitespace, never a
closing bracket. -/
theorem stringify_head (v : JVal) :
    ∃ c t, stringifyV v = c :: t ∧ isWsC c = false ∧ ¬ c = ']' := by
  cases v with
  | jnull => exact ⟨'n', _, rfl, by decide, by decide⟩
  | jbool b =>
    cases b with
    | false => exact ⟨'f', _, rfl, by decide, by decide⟩
    | true => exact ⟨'t', _, rfl, by decide, by decide⟩
  | jnum n =>
    by_cases hneg : n < 0
    · exact ⟨'-', natDigits n.natAbs ++ [], by simp [stringifyV, intChars, hneg], by decide,
        by decide⟩
    · obtain ⟨c, t, hd, hdig⟩ := natDigits_head_digit n.toNat
      have htn : 48 ≤ c.toNat ∧ c.toNat ≤ 57 := by simpa [isDigitC] using hdig
      refine ⟨c, t, ?_, ?_, ?_⟩
      · simp [stringifyV, intChars, hneg, hd]
      · exact isWsC_eq_false (by omega) (by omega) (by omega) (by omega)
      · exact charNe_lit (by show c.toNat ≠ 93; omega)
  | jstr s => exact ⟨qC, _, rfl, by decide, by decide⟩
  | jarr xs => exact ⟨'[', _, rfl, by decide, by decide⟩
  | jobj fs => exact ⟨obC, _, rfl, by decide, by decide⟩

theorem pRound (fuel : Nat) :
    (∀ v rest, jcostV v ≤ fuel → numGuard rest →
      pVal fuel (stringifyV v ++ rest) = some (v, rest)) ∧
    (∀ xs rest, xs ≠ JElems.nil → jcostElems xs ≤ fuel →
      pElems fuel (stringifyElems xs ++ ']' :: rest) = some (xs, rest)) ∧
    (∀ fs rest, fs ≠ JFields.nil → jcostMembers fs ≤ fuel →
      pMembers fuel (stringifyMembers fs ++ cbC :: rest) = some (fs, rest)) := by
  induction fuel with
  | zero =>
    refine ⟨fun v rest hc _ => absurd hc (by have := jcostV_pos v; omega),
      fun xs rest hx hc => ?_, fun fs rest hx hc => ?_⟩
    · cases xs with
      | nil => exact absurd rfl hx
      | cons x tl => exact absurd hc (by simp only [jcostElems]; omega)
    · cases fs with
      | nil => exact absurd rfl hx
      | cons k v tl => exact absurd hc (by simp only [jcostMembers]; omega)
  | succ f ih =>
    obtain ⟨ihV, ihE, ihM⟩ := ih
    refine ⟨?_, ?_, ?_⟩
    · intro v rest hc hg
      cases v with
      | jnull => rfl
      | jbool b => cases b <;> rfl
      | jnum n =>
        show pVal (f + 1) (intChars n ++ rest) = some (.jnum n, rest)
        by_cases hneg : n < 0
        · have hI : intChars n = '-' :: natDigits n.natAbs := by simp [intChars, hneg]
          rw [hI, List.cons_append, pVal_step_num (Or.inl rfl), ← List.cons_append, ← hI]
          exact pNum_intChars n rest hg
        · have hI : intChars n = natDigits n.toNat := by simp [intChars, hneg]
          obtain ⟨c, t, hd, hdig⟩ := natDigits_head_digit n.toNat
          rw [hI, hd, List.cons_append, pVal_step_num (Or.inr hdig), ← List.cons_append, ← hd,
            ← hI]
          exact pNum_intChars n rest hg
      | jstr s =>
        have hshape : stringifyV (.jstr s) ++ rest = qC :: (escStr s ++ qC :: rest) := by
          show strLit s ++ rest = qC :: (escStr s ++ qC :: rest)
          simp [strLit]
        rw [hshape]
        have hstep : ∀ X : List Char, pVal (f + 1) (qC :: X) =
            (match pStr X with
             | some (str, r) => some (.jstr str, r)
             | none => none) := fun X => rfl
        rw [hstep, pStr_escStr]
      | jarr xs =>
        cases xs with
        | nil => rfl
        | cons x tl =>
          have hshape : stringifyV (.jarr (.cons x tl)) ++ rest =
              '[' :: (stringifyElems (.cons x tl) ++ ']' :: rest) := by
            show ('[' :: stringifyElems (.cons x tl) ++ [']']) ++ rest = _
            simp
          rw [hshape]
          have hcost : jcostElems (.cons x tl) ≤ f := by
            have h1 : jcostV (.jarr (.cons x tl)) = 1 + jcostElems (.cons x tl) := by
              simp [jcostV]
            omega
          obtain ⟨c0, t0, hd0, hw0, hb0⟩ := stringify_head x
          have hSER : ∃ R, stringifyElems (.cons x tl) ++ ']' :: rest = c0 :: R := by
            cases tl with
            | nil => exact ⟨t0 ++ ']' :: rest, by simp [stringifyElems, hd0]⟩
            | cons y tl2 =>
              exact ⟨t0 ++ ',' :: stringifyElems (.cons y tl2) ++ ']' :: rest,
                by simp [stringifyElems, hd0]⟩
          obtain ⟨R, hR⟩ := hSER
          have harr1 : pVal (f + 1) ('[' :: (stringifyElems (.cons x tl) ++ ']' :: rest)) =
              (match pElems f (stringifyElems (.cons x tl) ++ ']' :: rest) with
               | some (ys, r) => some (.jarr ys, r)
               | none => none) := by
            have harr0 : pVal (f + 1) ('[' :: (stringifyElems (.cons x tl) ++ ']' :: rest)) =
                (match skipWs (stringifyElems (.cons x tl) ++ ']' :: rest) with
                 | [] => none
                 | c2 :: r2 =>
                   if c2 = ']' then some (.jarr .nil, r2)
                   else
                     match pElems f (stringifyElems (.cons x tl) ++ ']' :: rest) with
                     | some (ys, r) => some (.jarr ys, r)
                     | none => none) := rfl
            rw [harr0, hR, skipWs_cons_false _ hw0]
            simp only [if_neg hb0]
          rw [harr1, ihE (.cons x tl) rest (fun h => by cases h) hcost]
      | jobj fs =>
        cases fs with
        | nil => rfl
        | cons k v tl =>
          have hshape : stringifyV (.jobj (.cons k v tl)) ++ rest =
              obC :: (stringifyMembers (.cons k v tl) ++ cbC :: rest) := by
            show (obC :: stringifyMembers (.cons k v tl) ++ [cbC]) ++ rest = _
            simp
          rw [hshape]
          have hcost : jcostMembers (.cons k v tl) ≤ f := by
            have h1 : jcostV (.jobj (.cons k v tl)) = 1 + jcostMembers (.cons k v tl) := by
              simp [jcostV]
            omega
          have hSER : ∃ R, stringifyMembers (.cons k v tl) ++ cbC :: rest = qC :: R := by
            cases tl with
            | nil =>
              exact ⟨escStr k ++ qC :: ':' :: stringifyV v ++ cbC :: rest,
                by simp [stringifyMembers, strLit]⟩
            | cons k2 v2 tl2 =>
              exact ⟨escStr k ++ qC :: ':' :: stringifyV v ++
                  ',' :: stringifyMembers (.cons k2 v2 tl2) ++ cbC :: rest,
                by simp [stringifyMembers, strLit]⟩
          obtain ⟨R, hR⟩ := hSER
          have hobj1 : pVal (f + 1) (obC :: (stringifyMembers (.cons k v tl) ++ cbC :: rest)) =
              (match pMembers f (stringifyMembers (.cons k v tl) ++ cbC :: rest) with
               | some (gs, r3) => some (.jobj gs, r3)
               | none => none) := by
            have hobj0 : pVal (f + 1) (obC :: (stringifyMembers (.cons k v tl) ++ cbC :: rest)) =
                (match skipWs (stringifyMembers (.cons k v tl) ++ cbC :: rest) with
                 | [] => none
                 | c2 :: r2 =>
                   if c2 = cbC then some (.jobj .nil, r2)
                   else
                     match pMembers f (stringifyMembers (.cons k v tl) ++ cbC :: rest) with
                     | some (gs, r3) => some (.jobj gs, r3)
                     | none => none) := rfl
            rw [hobj0, hR, skipWs_cons_false _ (by decide)]
            simp only [if_neg (show ¬ qC = cbC from by decide)]
          rw [hobj1, ihM (.cons k v tl) rest (fun h => by cases h) hcost]
    · intro xs rest hx hc
      cases xs with
      | nil => exact absurd rfl hx
      | cons v tl =>
        cases tl with
        | nil =>
          show pElems (f + 1) (stringifyV v ++ ']' :: rest) = some (.cons v .nil, rest)
          rw [pElems, ihV v (']' :: rest) (by simp only [jcostElems] at hc; omega)
            (numGuard_rb rest)]
          rfl
        | cons y tl2 =>
          have hsh : stringifyElems (.cons v (.cons y tl2)) ++ ']' :: rest =
              stringifyV v ++ ',' :: (stringifyElems (.cons y tl2) ++ ']' :: rest) := by
            simp [stringifyElems]
          rw [hsh, pElems, ihV v _ (by simp only [jcostElems] at hc; omega) (numGuard_comma _)]
          simp only []
          rw [skipWs_cons_false _ (by decide)]
          simp only [if_pos rfl]
          rw [ihE (.cons y tl2) rest (fun h => by cases h)
            (by simp only [jcostElems] at hc ⊢; omega)]
          rfl
    · intro fs rest hx hc
      cases fs with
      | nil => exact absurd rfl hx
      | cons k v tl =>
        cases tl with
        | nil =>
          have hsh : stringifyMembers (.cons k v .nil) ++ cbC :: rest =
              qC :: (escStr k ++ qC :: (':' :: (stringifyV v ++ cbC :: rest))) := by
            simp [stringifyMembers, strLit]
          rw [hsh, pMembers, skipWs_cons_false _ (by decide)]
          simp only [if_pos rfl]
          rw [pStr_escStr]
          simp only []
          rw [skipWs_cons_false _ (by decide)]
          simp only [if_pos rfl]
          rw [ihV v (cbC :: rest) (by simp only [jcostMembers] at hc; omega) (numGuard_cb _)]
          rfl
        | cons k2 v2 tl2 =>
          have hsh : stringifyMembers (.cons k v (.cons k2 v2 tl2)) ++ cbC :: rest =
              qC :: (escStr k ++ qC :: (':' :: (stringifyV v ++
                ',' :: (stringifyMembers (.cons k2 v2 tl2) ++ cbC :: rest)))) := by
            simp [stringifyMembers, strLit]
          rw [hsh, pMembers, skipWs_cons_false _ (by decide)]
          simp only [if_pos rfl]
          rw [pStr_escStr]
          simp only []
          rw [skipWs_cons_false _ (by decide)]
          simp only [if_pos rfl]
          rw [ihV v _ (by simp only [jcostMembers] at hc; omega) (numGuard_comma _)]
          simp only []
          rw [skipWs_cons_false _ (by decide)]
          simp only [if_pos rfl]
          rw [ihM (.cons k2 v2 tl2) rest (fun h => by cases h)
            (by simp only [jcostMembers] at hc ⊢; omega)]
          rfl

theorem jcost_le_lenV : ∀ v : JVal, jcostV v ≤ (stringifyV v).length := by
  intro v
  refine @JVal.rec (fun w => jcostV w ≤ (stringifyV w).length)
    (fun xs => jcostElems xs ≤ (stringifyElems xs).length + 1)
    (fun fs => jcostMembers fs ≤ (stringifyMembers fs).length + 1)
    ?_ ?_ ?_ ?_ ?_ ?_ ?_ ?_ ?_ ?_ v
  · decide
  · intro b
    cases b <;> decide
  · intro n
    show 1 ≤ (intChars n).length
    by_cases hneg : n < 0
    · simp [intChars, hneg]
    · simp only [intChars, if_neg hneg]
      have := @natDigitsGo_ne_nil (n.toNat + 1) n.toNat (by omega)
      exact List.length_pos.mpr this
  · intro s
    show 1 ≤ (strLit s).length
    simp [strLit]
  · intro xs ih
    show 1 + jcostElems xs ≤ ('[' :: stringifyElems xs ++ [']']).length
    simp only [List.cons_append, List.length_cons, List.length_append, List.length_singleton]
    omega
  · intro fs ih
    show 1 + jcostMembers fs ≤ (obC :: stringifyMembers fs ++ [cbC]).length
    simp only [List.cons_append, List.length_cons, List.length_append, List.length_singleton]
    omega
  · simp [jcostElems]
  · intro x tl ihx ihtl
    cases tl with
    | nil =>
      show 1 + jcostV x + jcostElems .nil ≤ (stringifyV x).length + 1
      simp only [jcostElems]
      omega
    | cons y tl2 =>
      show 1 + jcostV x + jcostElems (.cons y tl2) ≤
        (stringifyV x ++ ',' :: stringifyElems (.cons y tl2)).length + 1
      simp only [List.length_append, List.length_cons] at ihtl ⊢
      omega
  · simp [jcostMembers]
  · intro k val tl ihv ihtl
    cases tl with
    | nil =>
      show 1 + jcostV val + jcostMembers .nil ≤
        (strLit k ++ ':' :: stringifyV val).length + 1
      simp only [jcostMembers, List.length_append, List.length_cons]
      omega
    | cons k2 v2 tl2 =>
      show 1 + jcostV val + jcostMembers (.cons k2 v2 tl2) ≤
        (strLit k ++ ':' :: stringifyV val ++
          ',' :: stringifyMembers (.cons k2 v2 tl2)).length + 1
      simp only [List.length_append, List.length_cons] at ihtl ⊢
      omega

/-- `JSON.parse` inverts `JSON.stringify` on every data value. -/
theorem parseJson_stringify (v : JVal) : parseJson (stringifyV v) = some v := by
  unfold parseJson
  have h1 : pVal ((stringifyV v).length + 1) (stringifyV v ++ []) = some (v, []) :=
    (pRound _).1 v [] (by have := jcost_le_lenV v; omega) trivial
  rw [List.append_nil] at h1
  rw [h1]
  rfl

/-! Auxiliary lemmas: UTF-8 encoding and decoding. -/

theorem char_toNat_lt (c : Char) : c.toNat < 1114112 := by
  rcases c.valid with h | ⟨h1, h2⟩
  · have h3 : c.val.toNat < 55296 := h
    show c.val.toNat < 1114112
    omega
  · exact h2

theorem char_toNat_not_surrogate (c : Char) : c.toNat < 55296 ∨ 57343 < c.toNat := by
  rcases c.valid with h | ⟨h1, h2⟩
  · exact Or.inl h
  · exact Or.inr h1

theorem utf8DecodeStep_encodeChar (c : Char) (rest : List Nat) :
    utf8DecodeStep (utf8EncodeChar c ++ rest) = some (c, rest) := by
  have hlt := char_toNat_lt c
  have hsur := char_toNat_not_surrogate c
  have hofn := Char.ofNat_toNat c
  by_cases h1 : c.toNat < 128
  · rw [show utf8EncodeChar c = [c.toNat] from by simp [utf8EncodeChar, h1]]
    simp only [List.cons_append, List.nil_append, utf8DecodeStep.eq_def]
    rw [if_pos h1, hofn]
  · by_cases h2 : c.toNat < 2048
    · rw [show utf8EncodeChar c = [192 + c.toNat / 64, 128 + c.toNat % 64] from by
        simp [utf8EncodeChar, h1, h2]]
      simp only [List.cons_append, List.nil_append]
      simp only [utf8DecodeStep.eq_def]
      rw [if_neg (by omega), if_neg (by omega), if_pos (by omega)]
      simp only [if_pos (show 128 ≤ 128 + c.toNat % 64 ∧ 128 + c.toNat % 64 < 192 from
        ⟨by omega, by omega⟩)]
      rw [show (192 + c.toNat / 64 - 192) * 64 + (128 + c.toNat % 64 - 128) = c.toNat from by
        omega, hofn]
    · by_cases h3 : c.toNat < 65536
      · rw [show utf8EncodeChar c =
            [224 + c.toNat / 4096, 128 + c.toNat / 64 % 64, 128 + c.toNat % 64] from by
          simp [utf8EncodeChar, h1, h2, h3]]
        simp only [List.cons_append, List.nil_append]
        simp only [utf8DecodeStep.eq_def]
        rw [if_neg (by omega), if_neg (by omega), if_neg (by omega), if_pos (by omega)]
        simp only [if_pos (show 128 ≤ 128 + c.toNat / 64 % 64 ∧ 128 + c.toNat / 64 % 64 < 192 ∧
          128 ≤ 128 + c.toNat % 64 ∧ 128 + c.toNat % 64 < 192 from
          ⟨by omega, by omega, by omega, by omega⟩)]
        rw [show (224 + c.toNat / 4096 - 224) * 4096 + (128 + c.toNat / 64 % 64 - 128) * 64 +
          (128 + c.toNat % 64 - 128) = c.toNat from by omega]
        rw [if_pos ⟨by omega, by omega⟩, hofn]
      · rw [show utf8EncodeChar c =
            [240 + c.toNat / 262144, 128 + c.toNat / 4096 % 64, 128 + c.toNat / 64 % 64,
              128 + c.toNat % 64] from by
          simp [utf8EncodeChar, h1, h2, h3]]
        simp only [List.cons_append, List.nil_append]
        simp only [utf8DecodeStep.eq_def]
        rw [if_neg (by omega), if_neg (by omega), if_neg (by omega), if_neg (by omega),
          if_pos (by omega)]
        simp only [if_pos (show 128 ≤ 128 + c.toNat / 4096 % 64 ∧
          128 + c.toNat / 4096 % 64 < 192 ∧ 128 ≤ 128 + c.toNat / 64 % 64 ∧
          128 + c.toNat / 64 % 64 < 192 ∧ 128 ≤ 128 + c.toNat % 64 ∧
          128 + c.toNat % 64 < 192 from ⟨by omega, by omega, by omega, by omega, by omega,
          by omega⟩)]
        rw [show (240 + c.toNat / 262144 - 240) * 262144 + (128 + c.toNat / 4096 % 64 - 128) *
          4096 + (128 + c.toNat / 64 % 64 - 128) * 64 + (128 + c.toNat % 64 - 128) =
          c.toNat from by omega]
        rw [if_pos ⟨by omega, by omega⟩, hofn]

theorem utf8EncodeChar_shape (c : Char) : ∃ b0 brest, utf8EncodeChar c = b0 :: brest := by
  by_cases h1 : c.toNat < 128
  · exact ⟨c.toNat, [], by simp [utf8EncodeChar, h1]⟩
  · by_cases h2 : c.toNat < 2048
    · exact ⟨192 + c.toNat / 64, [128 + c.toNat % 64], by simp [utf8EncodeChar, h1, h2]⟩
    · by_cases h3 : c.toNat < 65536
      · exact ⟨224 + c.toNat / 4096, [128 + c.toNat / 64 % 64, 128 + c.toNat % 64],
          by simp [utf8EncodeChar, h1, h2, h3]⟩
      · exact ⟨240 + c.toNat / 262144,
          [128 + c.toNat / 4096 % 64, 128 + c.toNat / 64 % 64, 128 + c.toNat % 64],
          by simp [utf8EncodeChar, h1, h2, h3]⟩

theorem utf8DecodeGo_encode : ∀ s : List Char, ∀ fuel, s.length ≤ fuel →
    utf8DecodeGo fuel (utf8Encode s) = s := by
  intro s
  induction s with
  | nil =>
    intro fuel _
    cases fuel <;> rfl
  | cons c t ih =>
    intro fuel hf
    match fuel with
    | f + 1 =>
      obtain ⟨b0, brest, hsh⟩ := utf8EncodeChar_shape c
      have hx : utf8Encode (c :: t) = b0 :: (brest ++ utf8Encode t) := by
        show utf8EncodeChar c ++ utf8Encode t = _
        rw [hsh, List.cons_append]
      rw [hx, utf8DecodeGo]
      have hstep : utf8DecodeStep (b0 :: (brest ++ utf8Encode t)) = some (c, utf8Encode t) := by
        rw [← List.cons_append, ← hsh]
        exact utf8DecodeStep_encodeChar c (utf8Encode t)
      rw [hstep]
      simp only []
      rw [ih f (by simp at hf; omega)]

/-- `buffer.toString('utf8')` inverts UTF-8 encoding. -/
theorem utf8Decode_encode (s : List Char) : utf8Decode (utf8Encode s) = s := by
  unfold utf8Decode
  apply utf8DecodeGo_encode
  clear * -
  induction s with
  | nil => simp [utf8Encode]
  | cons c t ih =>
    show ((c :: t).length : Nat) ≤ (utf8EncodeChar c ++ utf8Encode t).length
    obtain ⟨b0, brest, hsh⟩ := utf8EncodeChar_shape c
    rw [hsh]
    simp only [List.length_cons, List.cons_append, List.length_append] at ih ⊢
    omega

/-- Induction on the field-list spine of an object. -/
theorem fieldsSpineInd (motive : JFields → Prop) (hnil : motive .nil)
    (hcons : ∀ k v tl, motive tl → motive (.cons k v tl)) : ∀ fs, motive fs := by
  intro fs
  exact @JFields.rec (fun _ => True) (fun _ => True) motive trivial (fun _ => trivial)
    (fun _ => trivial) (fun _ => trivial) (fun _ _ => trivial) (fun _ _ => trivial)
    trivial (fun _ _ _ _ => trivial) hnil (fun k v tl _ ih => hcons k v tl ih) fs

/-- Induction on the element-list spine of an array. -/
theorem elemsSpineInd (motive : JElems → Prop) (hnil : motive .nil)
    (hcons : ∀ x tl, motive tl → motive (.cons x tl)) : ∀ xs, motive xs := by
  intro xs
  exact @JElems.rec (fun _ => True) motive (fun _ => True) trivial (fun _ => trivial)
    (fun _ => trivial) (fun _ => trivial) (fun _ _ => trivial) (fun _ _ => trivial)
    hnil (fun x tl _ ih => hcons x tl ih) trivial (fun _ _ _ _ _ => trivial) xs

/-! Auxiliary lemmas: the matching-CRC search. -/

theorem jGetF_setFieldF (fs : JFields) (k : List Char) (v : JVal) :
    jGetF (setFieldF fs k v) k = some v := by
  induction fs using fieldsSpineInd with
  | hnil => simp [setFieldF, jGetF]
  | hcons k0 v0 tl ih =>
    by_cases h : k0 = k
    · simp [setFieldF, h, jGetF]
    · simp [setFieldF, h, jGetF, ih]

theorem jGetF_setFieldF_ne (fs : JFields) (k k2 : List Char) (v : JVal) (h : k ≠ k2) :
    jGetF (setFieldF fs k v) k2 = jGetF fs k2 := by
  induction fs using fieldsSpineInd with
  | hnil => simp [setFieldF, jGetF, h]
  | hcons k0 v0 tl ih =>
    by_cases h0 : k0 = k
    · subst h0
      simp [setFieldF, jGetF, h]
    · simp [setFieldF, h0, jGetF, ih]

theorem setFieldF_setFieldF (fs : JFields) (k : List Char) (v1 v2 : JVal) :
    setFieldF (setFieldF fs k v1) k v2 = setFieldF fs k v2 := by
  induction fs using fieldsSpineInd with
  | hnil => simp [setFieldF]
  | hcons k0 v0 tl ih =>
    by_cases h : k0 = k
    · simp [setFieldF, h]
    · simp [setFieldF, h, ih]

/-- Re-assigning `data.m.uts` after a previous assignment gives the same
value as a single assignment. -/
theorem setUts_setUts {data d1 : JVal} (t1 t2 : Int) (h : setUts data t1 = some d1) :
    setUts d1 t2 = setUts data t2 := by
  match data with
  | .jobj fs =>
    simp only [setUts] at h ⊢
    rcases hm : jGetF fs mKey with _ | mv
    · rw [hm] at h
      cases h
    · rw [hm] at h
      match mv with
      | .jobj mfs =>
        simp only at h
        cases h
        simp only [setUts, jGetF_setFieldF, setFieldF_setFieldF]
      | .jarr es =>
        simp only at h
        cases h
        simp only [setUts, hm]
      | .jnull => cases h
      | .jbool b => cases h
      | .jnum n => cases h
      | .jstr s => cases h
  | .jnull => cases h
  | .jbool b => cases h
  | .jnum n => cases h
  | .jstr s => cases h
  | .jarr es => cases h

/-- The loop of `findMatchingCrc` keeps the invariant that the current
serialization is the serialization of the current data value, so the
returned serialization matches the returned data. -/
theorem fmcGo_enc (tau : Nat → Int) :
    ∀ fuel i data r, fmcGo tau fuel i data (stringifyV data) = .ok r →
      r.enc = stringifyV r.data := by
  intro fuel
  induction fuel with
  | zero =>
    intro i data r h
    cases h
    rfl
  | succ f ih =>
    intro i data r h
    rw [fmcGo] at h
    by_cases hc : crc16V1 (utf8Encode (stringifyV data)) = crc16V2 (utf8Encode (stringifyV data))
    · rw [if_pos hc] at h
      cases h
      rfl
    · rw [if_neg hc] at h
      rcases hs : setUts data (tau i) with _ | data2
      · rw [hs] at h
        cases h
      · rw [hs] at h
        exact ih (i + 1) data2 r h

/-- Any value the search returns is the original or the original after a
single `data.m.uts` assignment. -/
theorem fmcGo_data (tau : Nat → Int) :
    ∀ fuel i data r, fmcGo tau fuel i data (stringifyV data) = .ok r →
      r.data = data ∨ ∃ t, setUts data t = some r.data := by
  intro fuel
  induction fuel with
  | zero =>
    intro i data r h
    cases h
    exact Or.inl rfl
  | succ f ih =>
    intro i data r h
    rw [fmcGo] at h
    by_cases hc : crc16V1 (utf8Encode (stringifyV data)) = crc16V2 (utf8Encode (stringifyV data))
    · rw [if_pos hc] at h
      cases h
      exact Or.inl rfl
    · rw [if_neg hc] at h
      rcases hs : setUts data (tau i) with _ | data2
      · rw [hs] at h
        cases h
      · rw [hs] at h
        rcases ih (i + 1) data2 r h with h2 | ⟨t, h2⟩
        · exact Or.inr ⟨tau i, by rw [hs, h2]⟩
        · exact Or.inr ⟨t, by rw [← setUts_setUts (tau i) t hs, h2]⟩

/-- When the first serialization's CRCs already disagree, the search
mutates: the returned value is the original after a `uts` assignment. -/
theorem fmcGo_data_mutated (tau : Nat → Int) (fuel i : Nat) (data : JVal) (r : FmcRes)
    (hne : crc16V1 (utf8Encode (stringifyV data)) ≠ crc16V2 (utf8Encode (stringifyV data)))
    (h : fmcGo tau (fuel + 1) i data (stringifyV data) = .ok r) :
    ∃ t, setUts data t = some r.data := by
  rw [fmcGo, if_neg hne] at h
  rcases hs : setUts data (tau i) with _ | data2
  · rw [hs] at h
    cases h
  · rw [hs] at h
    rcases fmcGo_data tau fuel (i + 1) data2 r h with h2 | ⟨t, h2⟩
    · exact ⟨tau i, by rw [hs, h2]⟩
    · exact ⟨t, by rw [← setUts_setUts (tau i) t hs, h2]⟩

/-- A returned match really has agreeing CRCs. -/
theorem fmcGo_matched (tau : Nat → Int) :
    ∀ fuel i data enc r, fmcGo tau fuel i data enc = .ok r → r.matched = true →
      crc16V1 (utf8Encode r.enc) = crc16V2 (utf8Encode r.enc) := by
  intro fuel
  induction fuel with
  | zero =>
    intro i data enc r h hm
    cases h
    cases hm
  | succ f ih =>
    intro i data enc r h hm
    rw [fmcGo] at h
    by_cases hc : crc16V1 (utf8Encode enc) = crc16V2 (utf8Encode enc)
    · rw [if_pos hc] at h
      cases h
      exact hc
    · rw [if_neg hc] at h
      rcases hs : setUts data (tau i) with _ | data2
      · rw [hs] at h
        cases h
      · rw [hs] at h
        exact ih (i + 1) data2 (stringifyV data2) r h hm

/-! Auxiliary lemmas: the encoder. -/

theorem fastMessageEncode_ok {msg : FastMsg} {dm : Option Int} {tau : Nat → Int}
    {buf : List Nat} {data2 : JVal}
    (h : fastMessageEncode msg dm tau = .ok (buf, data2)) :
    ∃ crc enc,
      buf = [1, 1, msg.status.toNat] ++ be32 msg.msgid.toNat ++ be32 crc ++
        be32 (utf8Len enc) ++ utf8Encode enc ∧
      utf8Len enc ≤ 4294967295 ∧
      ((effMode msg.crc_mode dm = 3 ∧ enc = stringifyV msg.data ∧ data2 = msg.data ∧
        crc = crc16V2 (utf8Encode (stringifyV msg.data))) ∨
       ((effMode msg.crc_mode dm = 1 ∨ effMode msg.crc_mode dm = 2) ∧
        findMatchingCrc msg.data tau = .ok (crc, enc, data2))) := by
  simp only [fastMessageEncode] at h
  by_cases h1 : ¬(0 ≤ msg.msgid ∧ msg.msgid ≤ 2147483647)
  · rw [if_pos h1] at h
    exact Except.noConfusion h
  rw [if_neg h1] at h
  by_cases h2 : ¬(objectLike msg.data = true)
  · rw [if_pos h2] at h
    exact Except.noConfusion h
  rw [if_neg h2] at h
  by_cases h3 : badDefaultMode dm = true
  · rw [if_pos h3] at h
    exact Except.noConfusion h
  rw [if_neg h3] at h
  by_cases h4 : ¬(msg.status = 1 ∨ msg.status = 2 ∨ msg.status = 3)
  · rw [if_pos h4] at h
    exact Except.noConfusion h
  rw [if_neg h4] at h
  by_cases hm1 : effMode msg.crc_mode dm = 1
  · rw [if_pos hm1] at h
    rcases hr : findMatchingCrc msg.data tau with e | ⟨crc, enc, d2⟩
    · rw [hr] at h
      exact Except.noConfusion h
    · rw [hr] at h
      simp only [] at h
      by_cases hlen : 4294967295 < utf8Len enc
      · rw [if_pos hlen] at h
        exact Except.noConfusion h
      · rw [if_neg hlen] at h
        have h5 := Except.ok.inj h
        have hbuf : buf = [1, 1, msg.status.toNat] ++ be32 msg.msgid.toNat ++ be32 crc ++
            be32 (utf8Len enc) ++ utf8Encode enc := by
          rw [← (Prod.mk.injEq _ _ _ _).mp h5 |>.1]
        have hd2 : data2 = d2 := by
          rw [← (Prod.mk.injEq _ _ _ _).mp h5 |>.2]
        subst hd2
        exact ⟨crc, enc, hbuf, by omega, Or.inr ⟨Or.inl hm1, rfl⟩⟩
  · by_cases hm3 : effMode msg.crc_mode dm = 3
    · rw [if_neg hm1, if_pos hm3] at h
      simp only [] at h
      by_cases hlen : 4294967295 < utf8Len (stringifyV msg.data)
      · rw [if_pos hlen] at h
        exact Except.noConfusion h
      · rw [if_neg hlen] at h
        have h5 := Except.ok.inj h
        have hbuf : buf = [1, 1, msg.status.toNat] ++ be32 msg.msgid.toNat ++
            be32 (crc16V2 (utf8Encode (stringifyV msg.data))) ++
            be32 (utf8Len (stringifyV msg.data)) ++ utf8Encode (stringifyV msg.data) := by
          rw [← (Prod.mk.injEq _ _ _ _).mp h5 |>.1]
        have hd2 : data2 = msg.data := by
          rw [← (Prod.mk.injEq _ _ _ _).mp h5 |>.2]
        exact ⟨crc16V2 (utf8Encode (stringifyV msg.data)), stringifyV msg.data, hbuf,
          by omega, Or.inl ⟨hm3, rfl, hd2, rfl⟩⟩
    · by_cases hm2 : effMode msg.crc_mode dm = 2
      · rw [if_neg hm1, if_neg hm3, if_pos hm2] at h
        rcases hr : findMatchingCrc msg.data tau with e | ⟨crc, enc, d2⟩
        · rw [hr] at h
          exact Except.noConfusion h
        · rw [hr] at h
          simp only [] at h
          by_cases hlen : 4294967295 < utf8Len enc
          · rw [if_pos hlen] at h
            exact Except.noConfusion h
          · rw [if_neg hlen] at h
            have h5 := Except.ok.inj h
            have hbuf : buf = [1, 1, msg.status.toNat] ++ be32 msg.msgid.toNat ++
                be32 crc ++ be32 (utf8Len enc) ++ utf8Encode enc := by
              rw [← (Prod.mk.injEq _ _ _ _).mp h5 |>.1]
            have hd2 : data2 = d2 := by
              rw [← (Prod.mk.injEq _ _ _ _).mp h5 |>.2]
            subst hd2
            exact ⟨crc, enc, hbuf, by omega, Or.inr ⟨Or.inr hm2, rfl⟩⟩
      · rw [if_neg hm1, if_neg hm3, if_neg hm2] at h
        exact Except.noConfusion h

/-! Auxiliary lemmas: the frame decoder. -/

theorem fastMessageDecode_ok {header : FastHeader} {buf : List Nat} {mode : Option Int}
    {msg : DMsg} (h : fastMessageDecode header buf mode = .ok msg) :
    msg.status = header.status ∧ msg.msgid = header.msgid ∧ objectLike msg.data = true ∧
      ((header.status = 1 ∨ header.status = 2) → isArr (jGet msg.data dKey) = true) ∧
      (header.status = 3 → errorDOk (jGet msg.data dKey) = true) := by
  simp only [fastMessageDecode] at h
  by_cases hl : buf.length ≠ 15 + header.datalen
  · rw [if_pos hl] at h
    exact Except.noConfusion h
  rw [if_neg hl] at h
  rcases hv : validateCrc
      (match truthyMode mode with
       | some v => v
       | none => 1) header.crc (utf8Encode (utf8Decode (buf.drop 15))) with _ | ⟨dm2, e2⟩
  · rw [hv] at h
    exact Except.noConfusion h
  · rw [hv] at h
    match e2 with
    | some e =>
      simp only [] at h
      exact Except.noConfusion h
    | none =>
      simp only [] at h
      rcases hp : parseJson (utf8Decode (buf.drop 15)) with _ | json
      · rw [hp] at h
        exact Except.noConfusion h
      · rw [hp] at h
        simp only [] at h
        by_cases ho : ¬(objectLike json = true)
        · rw [if_pos ho] at h
          exact Except.noConfusion h
        rw [if_neg ho] at h
        by_cases hd : (header.status = 1 ∨ header.status = 2) ∧ ¬(isArr (jGet json dKey) = true)
        · rw [if_pos hd] at h
          exact Except.noConfusion h
        rw [if_neg hd] at h
        by_cases he : header.status = 3 ∧ ¬(errorDOk (jGet json dKey) = true)
        · rw [if_pos he] at h
          exact Except.noConfusion h
        rw [if_neg he] at h
        have h5 := Except.ok.inj h
        subst h5
        refine ⟨rfl, rfl, by simpa using ho, fun hs => ?_, fun hs => ?_⟩
        · by_cases ha : isArr (jGet json dKey) = true
          · exact ha
          · exact absurd ⟨hs, ha⟩ hd
        · by_cases ha : errorDOk (jGet json dKey) = true
          · exact ha
          · exact absurd ⟨hs, ha⟩ he

theorem decodeLoopGo_small {mode : Option Int} (fuel : Nat) (buf : List Nat)
    (h : buf.length < 15) : decodeLoopGo mode fuel buf = ⟨[], none, buf⟩ := by
  cases fuel with
  | zero => rfl
  | succ f => rw [decodeLoopGo, if_pos h]

/-! Auxiliary lemmas: reading back an encoded frame. -/

theorem frame_getD0 (st : Nat) (m c d : Nat) (p : List Nat) :
    ([1, 1, st] ++ be32 m ++ be32 c ++ be32 d ++ p).getD 0 0 = 1 := rfl

theorem frame_getD1 (st : Nat) (m c d : Nat) (p : List Nat) :
    ([1, 1, st] ++ be32 m ++ be32 c ++ be32 d ++ p).getD 1 0 = 1 := rfl

theorem frame_getD2 (st : Nat) (m c d : Nat) (p : List Nat) :
    ([1, 1, st] ++ be32 m ++ be32 c ++ be32 d ++ p).getD 2 0 = st := rfl

theorem frame_read3 (st : Nat) {m : Nat} (c d : Nat) (p : List Nat) (hm : m < 4294967296) :
    readU32 ([1, 1, st] ++ be32 m ++ be32 c ++ be32 d ++ p) 3 = m := by
  have h : readU32 ([1, 1, st] ++ be32 m ++ be32 c ++ be32 d ++ p) 3 =
      m / 16777216 % 256 * 16777216 + m / 65536 % 256 * 65536 + m / 256 % 256 * 256 +
        m % 256 := rfl
  rw [h]
  omega

theorem frame_read7 (st : Nat) (m : Nat) {c : Nat} (d : Nat) (p : List Nat)
    (hc : c < 4294967296) :
    readU32 ([1, 1, st] ++ be32 m ++ be32 c ++ be32 d ++ p) 7 = c := by
  have h : readU32 ([1, 1, st] ++ be32 m ++ be32 c ++ be32 d ++ p) 7 =
      c / 16777216 % 256 * 16777216 + c / 65536 % 256 * 65536 + c / 256 % 256 * 256 +
        c % 256 := rfl
  rw [h]
  omega

theorem frame_read11 (st : Nat) (m c : Nat) {d : Nat} (p : List Nat) (hd : d < 4294967296) :
    readU32 ([1, 1, st] ++ be32 m ++ be32 c ++ be32 d ++ p) 11 = d := by
  have h : readU32 ([1, 1, st] ++ be32 m ++ be32 c ++ be32 d ++ p) 11 =
      d / 16777216 % 256 * 16777216 + d / 65536 % 256 * 65536 + d / 256 % 256 * 256 +
        d % 256 := rfl
  rw [h]
  omega

theorem frame_length (st : Nat) (m c d : Nat) (p : List Nat) :
    ([1, 1, st] ++ be32 m ++ be32 c ++ be32 d ++ p).length = 15 + p.length := by
  simp [be32]
  omega

/-- Running the stream decoder loop over exactly one well-formed frame:
the frame is consumed and handed to `fastMessageDecode`. -/
theorem decodeLoop_one_frame (mode : Option Int) (st msgid crc : Nat) (payload : List Nat)
    (hst : st = 1 ∨ st = 2 ∨ st = 3) (hm : msgid ≤ 2147483647) (hcrc : crc < 4294967296)
    (hlen : payload.length ≤ 4294967295) :
    decodeLoop mode ([1, 1, st] ++ be32 msgid ++ be32 crc ++ be32 payload.length ++ payload) =
      (match fastMessageDecode ⟨1, 1, st, msgid, crc, payload.length⟩
          ([1, 1, st] ++ be32 msgid ++ be32 crc ++ be32 payload.length ++ payload) mode with
       | .error e => ⟨[], some e, []⟩
       | .ok m => ⟨[m], none, []⟩) := by
  have hL := frame_length st msgid crc payload.length payload
  have h0 := frame_getD0 st msgid crc payload.length payload
  have h1 := frame_getD1 st msgid crc payload.length payload
  have h2 := frame_getD2 st msgid crc payload.length payload
  have h3 := @frame_read3 st msgid crc payload.length payload (by omega)
  have h7 := @frame_read7 st msgid crc payload.length payload hcrc
  have h11 := @frame_read11 st msgid crc payload.length payload (by omega)
  rw [decodeLoop, decodeLoopGo]
  rw [if_neg (by omega)]
  rw [if_neg (fun hc2 => hc2 h0)]
  rw [if_neg (fun hc2 => hc2 h1)]
  rw [if_neg (fun hc2 => hc2 (by rw [h2]; exact hst))]
  rw [if_neg (by rw [h3]; omega)]
  rw [h11]
  rw [if_neg (by omega)]
  rw [h0, h1, h2, h3, h7]
  rw [List.take_of_length_le (by omega), List.drop_eq_nil_of_le (by omega)]
  rcases hfd : fastMessageDecode ⟨1, 1, st, msgid, crc, payload.length⟩
      ([1, 1, st] ++ be32 msgid ++ be32 crc ++ be32 payload.length ++ payload) mode with e | m
  · simp only [hfd]
  · simp only [hfd]
    rw [decodeLoopGo_small _ [] (by simp)]

/-- Every message pushed by the decoder loop is fully validated. -/
theorem decodeLoopGo_valid (mode : Option Int) :
    ∀ (fuel : Nat) (buf : List Nat) (m : DMsg),
      m ∈ (decodeLoopGo mode fuel buf).msgs → validDMsg m := by
  intro fuel
  induction fuel with
  | zero =>
    intro buf m hm
    rw [decodeLoopGo] at hm
    exact absurd hm (List.not_mem_nil m)
  | succ n ih =>
    intro buf m hm
    rw [decodeLoopGo] at hm
    by_cases h1 : buf.length < 15
    · rw [if_pos h1] at hm
      exact absurd hm (List.not_mem_nil m)
    rw [if_neg h1] at hm
    by_cases h2 : buf.getD 0 0 ≠ 1
    · rw [if_pos h2] at hm
      exact absurd hm (List.not_mem_nil m)
    rw [if_neg h2] at hm
    by_cases h3 : buf.getD 1 0 ≠ 1
    · rw [if_pos h3] at hm
      exact absurd hm (List.not_mem_nil m)
    rw [if_neg h3] at hm
    by_cases h4 : ¬(buf.getD 2 0 = 1 ∨ buf.getD 2 0 = 2 ∨ buf.getD 2 0 = 3)
    · rw [if_pos h4] at hm
      exact absurd hm (List.not_mem_nil m)
    rw [if_neg h4] at hm
    by_cases h5 : 2147483647 < readU32 buf 3
    · rw [if_pos h5] at hm
      exact absurd hm (List.not_mem_nil m)
    rw [if_neg h5] at hm
    by_cases h6 : buf.length < 15 + readU32 buf 11
    · rw [if_pos h6] at hm
      exact absurd hm (List.not_mem_nil m)
    rw [if_neg h6] at hm
    rcases hfd : fastMessageDecode
        ⟨buf.getD 0 0, buf.getD 1 0, buf.getD 2 0, readU32 buf 3, readU32 buf 7, readU32 buf 11⟩
        (buf.take (15 + readU32 buf 11)) mode with e | m0
    · simp only [hfd] at hm
      exact absurd hm (List.not_mem_nil m)
    · simp only [hfd] at hm
      rcases List.mem_cons.mp hm with heq | hmem
      · subst heq
        obtain ⟨hs, hmi, hobj, harr, herr⟩ := fastMessageDecode_ok hfd
        refine ⟨?_, ?_, hobj, ?_, ?_⟩
        · rw [hs]
          exact not_not.mp h4
        · rw [hmi]
          exact Nat.not_lt.mp h5
        · intro hcase
          exact harr (by rw [← hs]; exact hcase)
        · intro hcase
          exact herr (by rw [← hs]; exact hcase)
      · exact ih _ _ hmem

/-! Auxiliary lemmas: CRC value bounds and byte bounds. -/

theorem crcV1Bit_lt (c : Nat) : crcV1Bit c < 65536 := by
  rw [crcV1Bit]
  by_cases h : c / 32768 % 2 = 1
  · rw [if_pos h]
    exact Nat.xor_lt_two_pow (n := 16) (Nat.mod_lt _ (by norm_num)) (by norm_num)
  · rw [if_neg h]
    exact Nat.mod_lt _ (by norm_num)

theorem crcV1Byte_lt (c b : Nat) : crcV1Byte c b < 65536 := by
  rw [crcV1Byte]
  exact crcV1Bit_lt _

theorem crc16V1_go_lt : ∀ (bs : List Nat) (c : Nat), c < 65536 → crc16V1.go c bs < 65536 := by
  intro bs
  induction bs with
  | nil => intro c hc; exact hc
  | cons b t ih => intro c hc; exact ih _ (crcV1Byte_lt c b)

theorem crc16V1_lt (bs : List Nat) : crc16V1 bs < 65536 :=
  crc16V1_go_lt bs 0 (by norm_num)

theorem crcV2Bit_lt {c : Nat} (h : c < 65536) : crcV2Bit c < 65536 := by
  rw [crcV2Bit]
  by_cases h2 : c % 2 = 1
  · rw [if_pos h2]
    exact Nat.xor_lt_two_pow (n := 16) (by omega) (by norm_num)
  · rw [if_neg h2]
    omega

theorem crcV2Byte_lt {c b : Nat} (hc : c < 65536) (hb : b < 65536) :
    crcV2Byte c b < 65536 := by
  rw [crcV2Byte]
  exact crcV2Bit_lt (crcV2Bit_lt (crcV2Bit_lt (crcV2Bit_lt (crcV2Bit_lt (crcV2Bit_lt
    (crcV2Bit_lt (crcV2Bit_lt (Nat.xor_lt_two_pow (n := 16) hc hb))))))))

theorem crc16V2_go_lt : ∀ (bs : List Nat), (∀ b ∈ bs, b < 65536) → ∀ (c : Nat), c < 65536 →
    crc16V2.go c bs < 65536 := by
  intro bs
  induction bs with
  | nil => intro _ c hc; exact hc
  | cons b t ih =>
    intro hb c hc
    exact ih (fun x hx => hb x (List.mem_cons_of_mem b hx)) _
      (crcV2Byte_lt hc (hb b (List.mem_cons_self b t)))

theorem crc16V2_lt (bs : List Nat) (h : ∀ b ∈ bs, b < 65536) : crc16V2 bs < 65536 :=
  crc16V2_go_lt bs h 0 (by norm_num)

theorem utf8EncodeChar_byte_lt (c : Char) : ∀ b ∈ utf8EncodeChar c, b < 256 := by
  intro b hb
  have hc : c.toNat < 1114112 := char_toNat_lt c
  rw [utf8EncodeChar] at hb
  by_cases h1 : c.toNat < 128
  · rw [if_pos h1] at hb
    simp only [List.mem_cons, List.not_mem_nil, or_false] at hb
    omega
  rw [if_neg h1] at hb
  by_cases h2 : c.toNat < 2048
  · rw [if_pos h2] at hb
    simp only [List.mem_cons, List.not_mem_nil, or_false] at hb
    have := Nat.mod_lt c.toNat (show 0 < 64 by norm_num)
    rcases hb with hb | hb <;> omega
  rw [if_neg h2] at hb
  by_cases h3 : c.toNat < 65536
  · rw [if_pos h3] at hb
    simp only [List.mem_cons, List.not_mem_nil, or_false] at hb
    have m1 := Nat.mod_lt c.toNat (show 0 < 64 by norm_num)
    have m2 := Nat.mod_lt (c.toNat / 64) (show 0 < 64 by norm_num)
    rcases hb with hb | hb | hb <;> omega
  · rw [if_neg h3] at hb
    simp only [List.mem_cons, List.not_mem_nil, or_false] at hb
    have m1 := Nat.mod_lt c.toNat (show 0 < 64 by norm_num)
    have m2 := Nat.mod_lt (c.toNat / 64) (show 0 < 64 by norm_num)
    have m3 := Nat.mod_lt (c.toNat / 4096) (show 0 < 64 by norm_num)
    rcases hb with hb | hb | hb | hb <;> omega

theorem utf8Encode_byte_lt : ∀ (s : List Char), ∀ b ∈ utf8Encode s, b < 256
  | [], b, hb => absurd hb (List.not_mem_nil b)
  | c :: t, b, hb => by
    rw [utf8Encode] at hb
    rcases List.mem_append.mp hb with h | h
    · exact utf8EncodeChar_byte_lt c b h
    · exact utf8Encode_byte_lt t b h

theorem crc16V2_utf8_lt (s : List Char) : crc16V2 (utf8Encode s) < 65536 :=
  crc16V2_lt _ (fun b hb => Nat.lt_of_lt_of_le (utf8Encode_byte_lt s b hb) (by norm_num))

/-! Auxiliary lemmas: `setUts` preserves everything but the `m` field. -/

theorem setUts_preserves {data d2 : JVal} (t : Int) (h : setUts data t = some d2) :
    objectLike d2 = true ∧ jGet d2 dKey = jGet data dKey := by
  match data with
  | .jobj fs =>
    simp only [setUts] at h
    rcases hm : jGetF fs mKey with _ | mv
    · rw [hm] at h
      cases h
    · rw [hm] at h
      match mv with
      | .jobj mfs =>
        simp only [] at h
        cases h
        refine ⟨rfl, ?_⟩
        simp only [jGet]
        exact jGetF_setFieldF_ne fs mKey dKey _ (by decide)
      | .jarr els =>
        simp only [] at h
        cases h
        exact ⟨rfl, rfl⟩
      | .jnull => exact Option.noConfusion h
      | .jbool b => exact Option.noConfusion h
      | .jnum n => exact Option.noConfusion h
      | .jstr s => exact Option.noConfusion h
  | .jnull => exact Option.noConfusion h
  | .jbool b => exact Option.noConfusion h
  | .jnum n => exact Option.noConfusion h
  | .jstr s => exact Option.noConfusion h
  | .jarr els => exact Option.noConfusion h

theorem frame_drop15 (st : Nat) (m c d : Nat) (p : List Nat) :
    ([1, 1, st] ++ be32 m ++ be32 c ++ be32 d ++ p).drop 15 = p := rfl

/-! The claims. -/

set_option maxRecDepth 40000 in
/-- C6: for the 17-byte UTF-8 payload that serializes `["hello","world"]`,
the legacy (V1) CRC16 function returns 10980 and the correct (V2) CRC16
function returns 7500. -/
theorem claimC6 :
    stringifyV c6data = c6payload ∧ (utf8Encode c6payload).length = 17 ∧
    crc16V1 (utf8Encode c6payload) = 10980 ∧ crc16V2 (utf8Encode c6payload) = 7500 := by
  decide

/-- C5: when validating a CRC in V1_V2 mode, if both CRC16 variants of the
payload match the header CRC the message validates with decoded mode
V1_V2; if exactly one variant matches it validates with that variant as
its decoded mode; and if neither matches validation reports BadCrc. -/
theorem claimC5 (headerCrc : Nat) (bytes : List Nat) :
    (crc16V1 bytes = headerCrc ∧ crc16V2 bytes = headerCrc →
        validateCrc 2 headerCrc bytes = some (some 2, none)) ∧
    (crc16V1 bytes = headerCrc ∧ crc16V2 bytes ≠ headerCrc →
        validateCrc 2 headerCrc bytes = some (some 1, none)) ∧
    (crc16V1 bytes ≠ headerCrc ∧ crc16V2 bytes = headerCrc →
        validateCrc 2 headerCrc bytes = some (some 3, none)) ∧
    (crc16V1 bytes ≠ headerCrc ∧ crc16V2 bytes ≠ headerCrc →
        validateCrc 2 headerCrc bytes = some (none, some .badCrc)) := by
  have hv : validateCrc 2 headerCrc bytes =
      (if crc16V1 bytes ≠ headerCrc ∧ crc16V2 bytes ≠ headerCrc then some (none, some .badCrc)
       else if crc16V1 bytes = headerCrc ∧ crc16V2 bytes = headerCrc then some (some 2, none)
       else if crc16V2 bytes = headerCrc then some (some 3, none)
       else some (some 1, none)) := by
    rw [validateCrc, if_neg (by norm_num), if_pos rfl]
  refine ⟨fun h => ?_, fun h => ?_, fun h => ?_, fun h => ?_⟩ <;> rw [hv]
  · rw [if_neg (fun hc => hc.1 h.1), if_pos h]
  · rw [if_neg (fun hc => hc.1 h.1), if_neg (fun hc => h.2 hc.2), if_neg h.2]
  · rw [if_neg (fun hc => hc.2 h.2), if_neg (fun hc => h.1 hc.1), if_pos h.2]
  · rw [if_pos h]

theorem claimC5_witness :
    ((crc16V1 [] = 0 ∧ crc16V2 [] = 0 → validateCrc 2 0 [] = some (some 2, none)) ∧
     (crc16V1 [] = 0 ∧ crc16V2 [] ≠ 0 → validateCrc 2 0 [] = some (some 1, none)) ∧
     (crc16V1 [] ≠ 0 ∧ crc16V2 [] = 0 → validateCrc 2 0 [] = some (some 3, none)) ∧
     (crc16V1 [] ≠ 0 ∧ crc16V2 [] ≠ 0 → validateCrc 2 0 [] = some (none, some .badCrc))) :=
  claimC5 0 []

/-- C8: on a buffered input of at least 15 bytes the stream decoder
validates the header fields in order and stops with the corresponding
terminal error, emitting no message: version ≠ 1 yields
unsupported_version, then type ≠ 1 yields unsupported_type, then a status
outside 1..3 yields unsupported_status, then a msgid above 2^31 - 1
yields invalid_msgid. -/
theorem claimC8 (mode : Option Int) (buf : List Nat) (h15 : 15 ≤ buf.length) :
    (buf.getD 0 0 ≠ 1 → decodeLoop mode buf = ⟨[], some .unsupportedVersion, buf⟩) ∧
    (buf.getD 0 0 = 1 → buf.getD 1 0 ≠ 1 →
        decodeLoop mode buf = ⟨[], some .unsupportedType, buf⟩) ∧
    (buf.getD 0 0 = 1 → buf.getD 1 0 = 1 →
        ¬(buf.getD 2 0 = 1 ∨ buf.getD 2 0 = 2 ∨ buf.getD 2 0 = 3) →
        decodeLoop mode buf = ⟨[], some .unsupportedStatus, buf⟩) ∧
    (buf.getD 0 0 = 1 → buf.getD 1 0 = 1 →
        (buf.getD 2 0 = 1 ∨ buf.getD 2 0 = 2 ∨ buf.getD 2 0 = 3) →
        2147483647 < readU32 buf 3 →
        decodeLoop mode buf = ⟨[], some .invalidMsgid, buf⟩) := by
  refine ⟨fun h0 => ?_, fun h0 h1 => ?_, fun h0 h1 h2 => ?_, fun h0 h1 h2 h3 => ?_⟩ <;>
    rw [decodeLoop, decodeLoopGo, if_neg (Nat.not_lt.mpr h15)]
  · rw [if_pos h0]
  · rw [if_neg (fun hc => hc h0), if_pos h1]
  · rw [if_neg (fun hc => hc h0), if_neg (fun hc => hc h1), if_pos h2]
  · rw [if_neg (fun hc => hc h0), if_neg (fun hc => hc h1), if_neg (not_not.mpr h2),
      if_pos h3]

theorem claimC8_witness :
    15 ≤ cexBadVersion.length ∧
    ((cexBadVersion.getD 0 0 ≠ 1 →
        decodeLoop none cexBadVersion = ⟨[], some .unsupportedVersion, cexBadVersion⟩) ∧
     (cexBadVersion.getD 0 0 = 1 → cexBadVersion.getD 1 0 ≠ 1 →
        decodeLoop none cexBadVersion = ⟨[], some .unsupportedType, cexBadVersion⟩) ∧
     (cexBadVersion.getD 0 0 = 1 → cexBadVersion.getD 1 0 = 1 →
        ¬(cexBadVersion.getD 2 0 = 1 ∨ cexBadVersion.getD 2 0 = 2 ∨
          cexBadVersion.getD 2 0 = 3) →
        decodeLoop none cexBadVersion = ⟨[], some .unsupportedStatus, cexBadVersion⟩) ∧
     (cexBadVersion.getD 0 0 = 1 → cexBadVersion.getD 1 0 = 1 →
        (cexBadVersion.getD 2 0 = 1 ∨ cexBadVersion.getD 2 0 = 2 ∨
          cexBadVersion.getD 2 0 = 3) →
        2147483647 < readU32 cexBadVersion 3 →
        decodeLoop none cexBadVersion = ⟨[], some .invalidMsgid, cexBadVersion⟩)) :=
  ⟨by decide, claimC8 none cexBadVersion (by decide)⟩

/-- C9: every message the stream decoder emits is a fully validated
logical message; once a terminal error is latched, feeding or flushing
the decoder changes nothing and emits nothing further; and flushing a
quiescent error-free decoder that still holds unconsumed bytes raises the
terminal IncompleteMessage error. -/
theorem claimC9 (mode : Option Int) (st : DecSt) (chunk : List Nat)
    (hq : settledSt mode st) :
    (∀ m ∈ (feed mode st chunk).msgs, m ∈ st.msgs ∨ validDMsg m) ∧
    (st.err.isSome = true → feed mode st chunk = st ∧ finish mode st = st) ∧
    (st.err = none → st.buf ≠ [] → (finish mode st).err = some .incompleteMessage) := by
  refine ⟨?_, ?_, ?_⟩
  · intro m hm
    rw [feed] at hm
    by_cases he : st.err.isSome = true
    · rw [if_pos he] at hm
      exact Or.inl hm
    · rw [if_neg he] at hm
      simp only [decodeStep] at hm
      rcases List.mem_append.mp hm with h | h
      · exact Or.inl h
      · exact Or.inr (decodeLoopGo_valid mode _ _ m h)
  · intro he
    constructor
    · rw [feed, if_pos he]
    · rw [finish, if_pos he]
  · intro he hb
    rw [finish, if_neg (by rw [he]; simp)]
    simp only [decodeStep]
    rw [settledSt] at hq
    simp only [hq]
    rw [if_pos ⟨trivial, hb⟩]

theorem claimC9_witness :
    settledSt none cexStub ∧
    ((∀ m ∈ (feed none cexStub []).msgs, m ∈ cexStub.msgs ∨ validDMsg m) ∧
     (cexStub.err.isSome = true →
        feed none cexStub [] = cexStub ∧ finish none cexStub = cexStub) ∧
     (cexStub.err = none → cexStub.buf ≠ [] →
        (finish none cexStub).err = some .incompleteMessage)) := by
  have h : settledSt none cexStub := by
    show decodeLoop none cexStub.buf = ⟨[], none, cexStub.buf⟩
    decide
  exact ⟨h, claimC9 none cexStub [] h⟩

/-- C2 (corrected): the encoder does not reject the effective mode V1_V2.
When the effective CRC mode resolves to V1_V2 (and the default mode
argument is well-formed), fastMessageEncode behaves exactly as it does
for a per-message mode of V1: both run the same matching-CRC search. -/
theorem claimC2 (msg : FastMsg) (dmode : Option Int) (tau : Nat → Int)
    (h2 : effMode msg.crc_mode dmode = 2) (hd : badDefaultMode dmode = false) :
    fastMessageEncode msg dmode tau =
      fastMessageEncode ⟨msg.msgid, msg.status, msg.data, some 1⟩ none tau := by
  simp only [fastMessageEncode]
  by_cases c1 : ¬(0 ≤ msg.msgid ∧ msg.msgid ≤ 2147483647)
  · rw [if_pos c1, if_pos c1]
  rw [if_neg c1, if_neg c1]
  by_cases c2 : ¬(objectLike msg.data = true)
  · rw [if_pos c2, if_pos c2]
  rw [if_neg c2, if_neg c2]
  rw [if_neg (fun hc => by rw [hd] at hc; exact Bool.noConfusion hc)]
  rw [if_neg (fun hc : badDefaultMode none = true => by exact absurd hc (by decide))]
  by_cases c4 : ¬(msg.status = 1 ∨ msg.status = 2 ∨ msg.status = 3)
  · rw [if_pos c4, if_pos c4]
  rw [if_neg c4, if_neg c4]
  rw [h2]
  have he1 : effMode (some 1) none = 1 := by decide
  rw [he1]
  rw [if_neg (by norm_num), if_neg (by norm_num), if_pos rfl, if_pos rfl]

theorem claimC2_witness :
    effMode (some 2) none = 2 ∧ badDefaultMode none = false ∧
    fastMessageEncode ⟨1, 1, cexDataA, some 2⟩ none cexTau =
      fastMessageEncode ⟨1, 1, cexDataA, some 1⟩ none cexTau :=
  ⟨by decide, by decide,
    claimC2 ⟨1, 1, cexDataA, some 2⟩ none cexTau (by decide) (by decide)⟩

set_option maxRecDepth 100000 in
/-- C2 counterexample: a message carrying the per-message CRC mode V1_V2
is encoded without any synchronous failure, contradicting the claim that
fastMessageEncode rejects it. -/
theorem claimC2_counterexample :
    cexEncA = .ok (cexBufA, cexDataA) := by decide

/-- Packaging of the encoder result: the serialization emitted is the
serialization of the data value the encoder leaves behind. -/
theorem findMatchingCrc_enc {data d2 : JVal} {tau : Nat → Int} {crc : Nat} {enc : List Char}
    (h : findMatchingCrc data tau = .ok (crc, enc, d2)) :
    enc = stringifyV d2 ∧ (d2 = data ∨ ∃ t, setUts data t = some d2) := by
  rw [findMatchingCrc] at h
  rcases hg : fmcGo tau 500000 0 data (stringifyV data) with e | r
  · rw [hg] at h
    exact Except.noConfusion h
  · rw [hg] at h
    simp only [Except.ok.injEq, Prod.mk.injEq] at h
    obtain ⟨hcrc, henc, hdata⟩ := h
    have he := fmcGo_enc tau 500000 0 data r hg
    have hd := fmcGo_data tau 500000 0 data r hg
    subst henc hdata
    exact ⟨he, hd⟩

/-- C4: every buffer the encoder returns has length exactly 15 plus the
UTF-8 byte length of the JSON serialization of the message's data (as
left by the encoder), and the DLEN header field holds that byte
length. -/
theorem claimC4 {msg : FastMsg} {dmode : Option Int} {tau : Nat → Int} {buf : List Nat}
    {data2 : JVal} (h : fastMessageEncode msg dmode tau = .ok (buf, data2)) :
    buf.length = 15 + utf8Len (stringifyV data2) ∧
    readU32 buf 11 = utf8Len (stringifyV data2) := by
  obtain ⟨crc, enc, hbuf, hle, hcase⟩ := fastMessageEncode_ok h
  have henc : enc = stringifyV data2 := by
    rcases hcase with ⟨_, he, hd, _⟩ | ⟨_, hf⟩
    · rw [he, hd]
    · exact (findMatchingCrc_enc hf).1
  subst henc
  constructor
  · rw [hbuf, frame_length]
    rfl
  · rw [hbuf]
    exact @frame_read11 msg.status.toNat msg.msgid.toNat crc (utf8Len (stringifyV data2))
      (utf8Encode (stringifyV data2)) (by omega)

set_option maxRecDepth 100000 in
theorem claimC4_witness :
    fastMessageEncode ⟨1, 1, cexDataB, some 1⟩ none cexTau = .ok (cexBufB, cexDataB2) ∧
    (cexBufB.length = 15 + utf8Len (stringifyV cexDataB2) ∧
     readU32 cexBufB 11 = utf8Len (stringifyV cexDataB2)) :=
  ⟨by decide, @claimC4 ⟨1, 1, cexDataB, some 1⟩ none cexTau cexBufB cexDataB2 (by decide)⟩

/-- C10: encoding is not free of side effects on its argument.  Under an
effective CRC mode of V1 or V1_V2, whenever the first serialization's
legacy and correct CRC16 values differ, the encoder hands back a data
value obtained from the caller's by reassigning `data.m.uts`; under
effective mode V2 the data value is handed back unchanged. -/
theorem claimC10 {msg : FastMsg} {dmode : Option Int} {tau : Nat → Int} {buf : List Nat}
    {data2 : JVal} (h : fastMessageEncode msg dmode tau = .ok (buf, data2)) :
    ((effMode msg.crc_mode dmode = 1 ∨ effMode msg.crc_mode dmode = 2) →
      crc16V1 (utf8Encode (stringifyV msg.data)) ≠ crc16V2 (utf8Encode (stringifyV msg.data)) →
      ∃ t, setUts msg.data t = some data2) ∧
    (effMode msg.crc_mode dmode = 3 → data2 = msg.data) := by
  obtain ⟨crc, enc, hbuf, hle, hcase⟩ := fastMessageEncode_ok h
  constructor
  · intro hm hne
    rcases hcase with ⟨h3, _⟩ | ⟨_, hf⟩
    · rcases hm with h1 | h1 <;> rw [h1] at h3 <;> exact absurd h3 (by norm_num)
    · rw [findMatchingCrc] at hf
      rcases hg : fmcGo tau 500000 0 msg.data (stringifyV msg.data) with e | r
      · rw [hg] at hf
        exact Except.noConfusion hf
      · rw [hg] at hf
        simp only [Except.ok.injEq, Prod.mk.injEq] at hf
        obtain ⟨_, _, hdata⟩ := hf
        obtain ⟨t, ht⟩ := fmcGo_data_mutated tau 499999 0 msg.data r hne hg
        exact ⟨t, by rw [ht, hdata]⟩
  · intro h3
    rcases hcase with ⟨_, _, hd, _⟩ | ⟨hm, _⟩
    · exact hd
    · rcases hm with h1 | h1 <;> rw [h3] at h1 <;> exact absurd h1 (by norm_num)

set_option maxRecDepth 100000 in
theorem claimC10_witness :
    cexEncB = .ok (cexBufB, cexDataB2) ∧ cexDataB2 = cexDataC2 ∧ cexDataB2 ≠ cexDataB ∧
    setUts cexDataB 6763 = some cexDataB2 ∧
    (((effMode (some 1) none = 1 ∨ effMode (some 1) none = 2) →
      crc16V1 (utf8Encode (stringifyV cexDataB)) ≠
        crc16V2 (utf8Encode (stringifyV cexDataB)) →
      ∃ t, setUts cexDataB t = some cexDataB2) ∧
     (effMode (some 1) none = 3 → cexDataB2 = cexDataB)) :=
  ⟨by decide, by decide, by decide, by decide,
    @claimC10 ⟨1, 1, cexDataB, some 1⟩ none cexTau cexBufB cexDataB2 (by decide)⟩

/-- C3 (corrected): the matching-CRC search is bounded (it either stops
on a serialization whose legacy and correct CRCs agree, emitting their
common value, or gives up and falls back to the legacy CRC of the raw
data value), its emitted serialization is always the serialization of
the data value it leaves behind, and its only effect on the data is at
most a reassignment of `data.m.uts` — regardless of whether `m.uts` was
present initially. -/
theorem claimC3 {data d2 : JVal} {tau : Nat → Int} {crc : Nat} {enc : List Char}
    (h : findMatchingCrc data tau = .ok (crc, enc, d2)) :
    enc = stringifyV d2 ∧
    ((crc16V1 (utf8Encode enc) = crc16V2 (utf8Encode enc) ∧
        crc = crc16V1 (utf8Encode enc)) ∨
      crc = oldCrcOfValue data) ∧
    (d2 = data ∨ ∃ t, setUts data t = some d2) := by
  have hpack := findMatchingCrc_enc h
  refine ⟨hpack.1, ?_, hpack.2⟩
  rw [findMatchingCrc] at h
  rcases hg : fmcGo tau 500000 0 data (stringifyV data) with e | r
  · rw [hg] at h
    exact Except.noConfusion h
  · rw [hg] at h
    simp only [] at h
    by_cases hm : r.matched = true
    · rw [if_pos hm] at h
      simp only [Except.ok.injEq, Prod.mk.injEq] at h
      obtain ⟨hcrc, henc, _⟩ := h
      left
      rw [← henc, ← hcrc]
      exact ⟨fmcGo_matched tau 500000 0 data (stringifyV data) r hg hm, rfl⟩
    · rw [if_neg hm] at h
      simp only [Except.ok.injEq, Prod.mk.injEq] at h
      exact Or.inr h.1.symm

set_option maxRecDepth 100000 in
theorem claimC3_witness :
    findMatchingCrc cexDataA cexTau =
      .ok (crc16V1 (utf8Encode (stringifyV cexDataA)), stringifyV cexDataA, cexDataA) ∧
    (stringifyV cexDataA = stringifyV cexDataA ∧
     ((crc16V1 (utf8Encode (stringifyV cexDataA)) =
          crc16V2 (utf8Encode (stringifyV cexDataA)) ∧
        crc16V1 (utf8Encode (stringifyV cexDataA)) =
          crc16V1 (utf8Encode (stringifyV cexDataA))) ∨
       crc16V1 (utf8Encode (stringifyV cexDataA)) = oldCrcOfValue cexDataA) ∧
     (cexDataA = cexDataA ∨ ∃ t, setUts cexDataA t = some cexDataA)) :=
  ⟨by decide, @claimC3 cexDataA cexDataA cexTau (crc16V1 (utf8Encode (stringifyV cexDataA))) (stringifyV cexDataA) (by decide)⟩

set_option maxRecDepth 100000 in
/-- C3 counterexample: for data `\x7b"m":\x7b"name":"r"\x7d,"d":[]\x7d`,
which carries `m` but no `m.uts` and whose first serialization's CRCs
disagree, the search still runs and reassigns `m.uts`, and the emitted
CRC is the common CRC of the mutated serialization — not the first
iteration's legacy CRC of the unmutated serialization. -/
theorem claimC3_counterexample :
    findMatchingCrc cexDataC cexTau =
      .ok (crc16V1 (utf8Encode (stringifyV cexDataC2)), stringifyV cexDataC2, cexDataC2) ∧
    cexDataC2 ≠ cexDataC ∧
    crc16V1 (utf8Encode (stringifyV cexDataC2)) ≠
      crc16V1 (utf8Encode (stringifyV cexDataC)) := by decide

/-- C7: once the CRC validates, the decoder classifies the payload in
order — unparseable JSON yields invalid_json, a parsed non-object yields
bad_data, a DATA or END message without an array `d` yields bad_data_d,
an ERROR message without a well-formed error `d` yields bad_error — and
any emitted message has passed all of these checks. -/
theorem claimC7 (header : FastHeader) (buffer : List Nat) (mode : Option Int)
    (dm : Option Int) (hlen : buffer.length = 15 + header.datalen)
    (hv : validateCrc
        (match truthyMode mode with
         | some v => v
         | none => 1) header.crc (utf8Encode (utf8Decode (buffer.drop 15))) =
      some (dm, none)) :
    (parseJson (utf8Decode (buffer.drop 15)) = none →
        fastMessageDecode header buffer mode = .error .invalidJson) ∧
    (∀ j, parseJson (utf8Decode (buffer.drop 15)) = some j →
      (objectLike j = false → fastMessageDecode header buffer mode = .error .badData) ∧
      ((header.status = 1 ∨ header.status = 2) → objectLike j = true →
          isArr (jGet j dKey) = false →
          fastMessageDecode header buffer mode = .error .badDataD) ∧
      (header.status = 3 → objectLike j = true → errorDOk (jGet j dKey) = false →
          fastMessageDecode header buffer mode = .error .badError)) ∧
    (∀ m, fastMessageDecode header buffer mode = .ok m →
        objectLike m.data = true ∧
        ((m.status = 1 ∨ m.status = 2) → isArr (jGet m.data dKey) = true) ∧
        (m.status = 3 → errorDOk (jGet m.data dKey) = true)) := by
  have hD : fastMessageDecode header buffer mode =
      (match parseJson (utf8Decode (buffer.drop 15)) with
       | none => .error .invalidJson
       | some json =>
         if ¬objectLike json = true then .error .badData
         else if (header.status = 1 ∨ header.status = 2) ∧ ¬isArr (jGet json dKey) = true then
           .error .badDataD
         else if header.status = 3 ∧ ¬errorDOk (jGet json dKey) = true then .error .badError
         else .ok ⟨header.status, header.msgid, json, dm⟩) := by
    simp only [fastMessageDecode]
    rw [if_neg (fun hc => hc hlen)]
    rw [hv]
  refine ⟨?_, ?_, ?_⟩
  · intro hp
    rw [hD, hp]
  · intro j hp
    refine ⟨?_, ?_, ?_⟩
    · intro hobj
      rw [hD, hp]
      simp only []
      rw [if_pos (by rw [hobj]; exact fun hc => Bool.noConfusion hc)]
    · intro hst hobj harr
      rw [hD, hp]
      simp only []
      rw [if_neg (by rw [hobj]; exact fun hc => hc rfl),
        if_pos ⟨hst, by rw [harr]; exact fun hc => Bool.noConfusion hc⟩]
    · intro h3 hobj herr
      rw [hD, hp]
      simp only []
      rw [if_neg (by rw [hobj]; exact fun hc => hc rfl)]
      rw [if_neg (fun hc => by rcases hc.1 with h | h <;> omega)]
      rw [if_pos ⟨h3, by rw [herr]; exact fun hc => Bool.noConfusion hc⟩]
  · intro m hm
    obtain ⟨hs, _, hobj, harr, herr⟩ := fastMessageDecode_ok hm
    refine ⟨hobj, ?_, ?_⟩
    · intro hcase
      exact harr (by rw [← hs]; exact hcase)
    · intro hcase
      exact herr (by rw [← hs]; exact hcase)

set_option maxRecDepth 100000 in
theorem claimC7_witness :
    cexFrameX.length = 15 + (1 : Nat) ∧
    validateCrc 1 65439 (utf8Encode (utf8Decode (cexFrameX.drop 15))) = some (none, none) ∧
    ((parseJson (utf8Decode (cexFrameX.drop 15)) = none →
        fastMessageDecode ⟨1, 1, 1, 1, 65439, 1⟩ cexFrameX none = .error .invalidJson) ∧
     (∀ j, parseJson (utf8Decode (cexFrameX.drop 15)) = some j →
       (objectLike j = false →
          fastMessageDecode ⟨1, 1, 1, 1, 65439, 1⟩ cexFrameX none = .error .badData) ∧
       (((1 : Nat) = 1 ∨ (1 : Nat) = 2) → objectLike j = true →
          isArr (jGet j dKey) = false →
          fastMessageDecode ⟨1, 1, 1, 1, 65439, 1⟩ cexFrameX none = .error .badDataD) ∧
       ((1 : Nat) = 3 → objectLike j = true → errorDOk (jGet j dKey) = false →
          fastMessageDecode ⟨1, 1, 1, 1, 65439, 1⟩ cexFrameX none = .error .badError)) ∧
     (∀ m, fastMessageDecode ⟨1, 1, 1, 1, 65439, 1⟩ cexFrameX none = .ok m →
        objectLike m.data = true ∧
        ((m.status = 1 ∨ m.status = 2) → isArr (jGet m.data dKey) = true) ∧
        (m.status = 3 → errorDOk (jGet m.data dKey) = true))) :=
  ⟨by decide, by decide, claimC7 ⟨1, 1, 1, 1, 65439, 1⟩ cexFrameX none none (by decide) (by decide)⟩

/-- C1 (corrected): decoding an encoded valid message recovers its msgid,
its status, and the data value as left by the encoder (which the
matching-CRC search may have mutated), provided the effective mode is V2
or the search found a matching serialization.  The decoded data equals
the data value the encoder handed back, not necessarily the one the
caller supplied. -/
theorem claimC1 {msg : FastMsg} {dmode : Option Int} {tau : Nat → Int} {buf : List Nat}
    {data2 : JVal} (henc : fastMessageEncode msg dmode tau = .ok (buf, data2))
    (hst : msg.status = 1 ∨ msg.status = 2 ∨ msg.status = 3)
    (hmid : 0 ≤ msg.msgid ∧ msg.msgid ≤ 2147483647)
    (hobj : objectLike msg.data = true)
    (hshape : (msg.status = 1 ∨ msg.status = 2) → isArr (jGet msg.data dKey) = true)
    (herrshape : msg.status = 3 → errorDOk (jGet msg.data dKey) = true)
    (hmode : effMode msg.crc_mode dmode = 3 ∨
      ∃ r, fmcGo tau 500000 0 msg.data (stringifyV msg.data) = .ok r ∧ r.matched = true) :
    ∃ dm, decodeLoop (some (effMode msg.crc_mode dmode)) buf =
      ⟨[⟨msg.status.toNat, msg.msgid.toNat, data2, dm⟩], none, []⟩ := by
  obtain ⟨crc, enc, hbuf, hle, hcase⟩ := fastMessageEncode_ok henc
  have hdshape : enc = stringifyV data2 ∧ objectLike data2 = true ∧
      jGet data2 dKey = jGet msg.data dKey := by
    rcases hcase with ⟨_, he, hd, _⟩ | ⟨_, hf⟩
    · subst hd
      exact ⟨he, hobj, rfl⟩
    · obtain ⟨he, hor⟩ := findMatchingCrc_enc hf
      rcases hor with hd | ⟨t, ht⟩
      · subst hd
        exact ⟨he, hobj, rfl⟩
      · obtain ⟨ho, hg⟩ := setUts_preserves t ht
        exact ⟨he, ho, hg⟩
  obtain ⟨henc2, hobj2, hget⟩ := hdshape
  have hemnz : effMode msg.crc_mode dmode = 1 ∨ effMode msg.crc_mode dmode = 2 ∨
      effMode msg.crc_mode dmode = 3 := by
    rcases hcase with ⟨h3, _⟩ | ⟨hem, _⟩
    · exact Or.inr (Or.inr h3)
    · rcases hem with h | h
      · exact Or.inl h
      · exact Or.inr (Or.inl h)
  obtain ⟨dmv, hvc, hcrcb⟩ : ∃ dmv,
      validateCrc (effMode msg.crc_mode dmode) crc (utf8Encode enc) = some (dmv, none) ∧
      crc < 4294967296 := by
    rcases hcase with ⟨h3, he, _, hcrc⟩ | ⟨hem, hf⟩
    · refine ⟨some 3, ?_, ?_⟩
      · rw [h3, validateCrc, if_neg (by norm_num), if_neg (by norm_num), if_pos rfl]
        simp only []
        rw [if_neg (fun hc => hc (by rw [hcrc, he]))]
      · rw [hcrc]
        have := crc16V2_utf8_lt (stringifyV msg.data)
        omega
    · rcases hmode with h3 | ⟨r, hg, hm⟩
      · rcases hem with h | h <;> rw [h3] at h <;> norm_num at h
      · rw [findMatchingCrc] at hf
        rw [hg] at hf
        simp only [] at hf
        rw [if_pos hm] at hf
        simp only [Except.ok.injEq, Prod.mk.injEq] at hf
        obtain ⟨hcrc, henc3, _⟩ := hf
        have hagree := fmcGo_matched tau 500000 0 msg.data (stringifyV msg.data) r hg hm
        rw [henc3] at hcrc hagree
        rcases hem with h | h
        · refine ⟨none, ?_, ?_⟩
          · rw [h, validateCrc, if_pos rfl]
            simp only []
            rw [if_neg (fun hc2 => hc2 hcrc)]
          · rw [← hcrc]
            have := crc16V1_lt (utf8Encode enc)
            omega
        · refine ⟨some 2, ?_, ?_⟩
          · rw [h, validateCrc, if_neg (by norm_num), if_pos rfl]
            simp only []
            rw [if_neg (fun hc2 => hc2.1 hcrc),
              if_pos ⟨hcrc, by rw [← hagree]; exact hcrc⟩]
          · rw [← hcrc]
            have := crc16V1_lt (utf8Encode enc)
            omega
  have hstN : msg.status.toNat = 1 ∨ msg.status.toNat = 2 ∨ msg.status.toNat = 3 := by
    rcases hst with h | h | h <;> omega
  have hmidN : msg.msgid.toNat ≤ 2147483647 := by omega
  have hul : utf8Len enc = (utf8Encode enc).length := rfl
  rw [hul] at hbuf hle
  refine ⟨dmv, ?_⟩
  rw [hbuf]
  rw [decodeLoop_one_frame (some (effMode msg.crc_mode dmode)) msg.status.toNat
    msg.msgid.toNat crc (utf8Encode enc) hstN hmidN hcrcb hle]
  have hfd : fastMessageDecode
      ⟨1, 1, msg.status.toNat, msg.msgid.toNat, crc, (utf8Encode enc).length⟩
      ([1, 1, msg.status.toNat] ++ be32 msg.msgid.toNat ++ be32 crc ++
        be32 (utf8Encode enc).length ++ utf8Encode enc)
      (some (effMode msg.crc_mode dmode)) =
      .ok ⟨msg.status.toNat, msg.msgid.toNat, data2, dmv⟩ := by
    simp only [fastMessageDecode]
    rw [if_neg (fun hc => hc (frame_length _ _ _ _ _))]
    rw [frame_drop15, utf8Decode_encode]
    have hmode2 : (match truthyMode (some (effMode msg.crc_mode dmode)) with
        | some v => v
        | none => 1) = effMode msg.crc_mode dmode := by
      rw [truthyMode, if_neg (by rcases hemnz with h | h | h <;> rw [h] <;> norm_num)]
    rw [hmode2, hvc]
    simp only []
    rw [henc2, parseJson_stringify]
    simp only []
    rw [if_neg (fun hc => hc hobj2)]
    rw [if_neg (fun hc => hc.2 (by
      rw [hget]
      refine hshape ?_
      rcases hc.1 with h | h
      · exact Or.inl (by omega)
      · exact Or.inr (by omega)))]
    rw [if_neg (fun hc => hc.2 (by
      rw [hget]
      exact herrshape (by have h3 := hc.1; omega)))]
  rw [hfd]

set_option maxRecDepth 100000 in
theorem claimC1_witness :
    fastMessageEncode ⟨1, 1, cexDataA, some 2⟩ none cexTau = .ok (cexBufA, cexDataA) ∧
    fmcGo cexTau 500000 0 cexDataA (stringifyV cexDataA) =
      .ok ⟨true, stringifyV cexDataA, cexDataA⟩ ∧
    ∃ dm, decodeLoop (some (effMode (some 2) none)) cexBufA =
      ⟨[⟨(1 : Int).toNat, (1 : Int).toNat, cexDataA, dm⟩], none, []⟩ :=
  ⟨by decide, by decide,
    @claimC1 ⟨1, 1, cexDataA, some 2⟩ none cexTau cexBufA cexDataA (by decide) (by decide)
      (by decide) (by decide) (by decide) (by decide)
      (Or.inr ⟨⟨true, stringifyV cexDataA, cexDataA⟩, by decide, rfl⟩)⟩

set_option maxRecDepth 100000 in
/-- C1 counterexample: a valid message whose data carries `m.uts`,
encoded under per-message mode V1, decodes successfully but to a data
value different from the one the caller supplied — the matching-CRC
search reassigned `m.uts` before emitting. -/
theorem claimC1_counterexample :
    cexEncB = .ok (cexBufB, cexDataB2) ∧
    decodeLoop (some 1) cexBufB = ⟨[⟨1, 1, cexDataB2, none⟩], none, []⟩ ∧
    cexDataB2 ≠ cexDataB :=
  ⟨by decide, by decide, by decide⟩
